import Mathlib

/-!
Verification of the caption-studio core: the SRT codec (`srt_writer.py`,
`srt_parser.py`), the lyric aligner (`lyric_sync.py`), and the timeline
editor's mutation and progress-parsing logic (`ui/editor.py`).

Python strings are modelled as `List Char`; Python `float` seconds are
modelled as exact rationals (`ℚ`), so "modulo float rounding" statements
become exact statements about decimal rounding.  Python's `round` is
round-half-to-even, `divmod` is floor division (here `Int.ediv`/`Int.emod`,
which agree with floor division for the positive divisors used).
-/

set_option maxRecDepth 10000

namespace CaptionStudio

/-- Python strings are modelled as lists of characters. -/
abbrev Str := List Char

/-- Whitespace as recognised by Python's `str.strip` / the regex class `\s`
(ASCII whitespace plus the common one-byte Unicode spaces; wider Unicode
space categories never occur in the subtitle alphabet). -/
def isSpacePy (c : Char) : Bool :=
  c == '\t' || c == '\n' || c == '\x0b' || c == '\x0c' || c == '\r' || c == ' ' ||
  c == '\x1c' || c == '\x1d' || c == '\x1e' || c == '\x1f' || c == '\x85' || c == '\xa0'

/-- Line boundaries recognised by Python's `str.splitlines`. -/
def isEolPy (c : Char) : Bool :=
  c == '\n' || c == '\r' || c == '\x0b' || c == '\x0c' ||
  c == '\x1c' || c == '\x1d' || c == '\x1e' || c == '\x85' ||
  c == '\u2028' || c == '\u2029'

/-- Python `str.lstrip()`. -/
def pyLstrip (s : Str) : Str := s.dropWhile isSpacePy

/-- Python `str.rstrip()`. -/
def pyRstrip (s : Str) : Str := (s.reverse.dropWhile isSpacePy).reverse

/-- Python `str.strip()`. -/
def pyStrip (s : Str) : Str := pyRstrip (pyLstrip s)

/-- Fuel-indexed worker for `splitlinesPy` (each step consumes at least one
character, so `fuel = s.length` suffices; the fuel-exhausted branch is
unreachable from `splitlinesPy`); `acc` is the reversed current line. -/
def slGoF : ℕ → Str → Str → List Str
  | _, acc, [] => [acc.reverse]
  | fuel + 1, acc, c :: rest =>
    if c = '\r' then
      match rest with
      | '\n' :: rest2 => acc.reverse :: (if rest2 = [] then [] else slGoF fuel [] rest2)
      | _ => acc.reverse :: (if rest = [] then [] else slGoF fuel [] rest)
    else if isEolPy c then acc.reverse :: (if rest = [] then [] else slGoF fuel [] rest)
    else slGoF fuel (c :: acc) rest
  | 0, acc, s => [acc.reverse ++ s]

/-- Worker for `splitlinesPy` at exactly sufficient fuel. -/
def slGo (acc : Str) (s : Str) : List Str := slGoF s.length acc s

/-- Python `str.splitlines()`. -/
def splitlinesPy : Str → List Str
  | [] => []
  | c :: rest => slGo [] (c :: rest)

/-- Index just past the last `'\n'` of a list, if the list contains one. -/
def afterLastNl : Str → Option ℕ
  | [] => none
  | c :: rest =>
    match afterLastNl rest with
    | some k => some (k + 1)
    | none => if c = '\n' then some 1 else none

/-- Greedy match of the regex fragment `\s*\n` at the head of `rest`
(the part of `re.split(r"\n\s*\n", ·)` after its first `\n`): returns the
remainder after the match, i.e. after the last `'\n'` of the maximal
whitespace prefix, or `none` when the fragment does not match. -/
def wsNlMatch (rest : Str) : Option Str :=
  match afterLastNl (rest.takeWhile isSpacePy) with
  | some k => some (rest.drop k)
  | none => none

/-- Worker for `reSplitBlankPy`; `acc` is the reversed current piece.
Each step consumes at least one character, so `fuel = s.length` always
suffices; the fuel-exhausted branch is unreachable from `reSplitBlankPy`. -/
def reGoF : ℕ → Str → Str → List Str
  | _, acc, [] => [acc.reverse]
  | fuel + 1, acc, c :: rest =>
    if c = '\n' then
      match wsNlMatch rest with
      | some rest2 => acc.reverse :: reGoF fuel [] rest2
      | none => reGoF fuel ('\n' :: acc) rest
    else reGoF fuel (c :: acc) rest
  | 0, acc, s => [acc.reverse ++ s]

/-- Worker for `reSplitBlankPy` at exactly sufficient fuel. -/
def reGo (acc : Str) (s : Str) : List Str := reGoF s.length acc s

/-- Python `re.split(r"\n\s*\n", text)`: scan for the first position where
`\n\s*\n` matches (greedily), emit the piece before it, continue after it. -/
def reSplitBlankPy (text : Str) : List Str := reGo [] text

/-!
Rational arithmetic: the library's `Rat.add`, `Rat.sub`, `Rat.mul` and
`Rat.inv` are marked irreducible, so a witness evaluated by `decide` can
never reduce them in the kernel.  The model therefore computes with the
kernel-reducible equivalents below (`Rat.divInt` of cross-multiplied
numerators); the `qAdd_eq`/`qSub_eq`/`qMul_eq`/`qDiv_eq` theorems in the
theorem section identify them with `+`, `-`, `*`, `/`.
-/

/-- Rational addition, kernel-reducible (`qAdd_eq : qAdd a b = a + b`). -/
def qAdd (a b : ℚ) : ℚ := Rat.divInt (a.num * b.den + b.num * a.den) (a.den * b.den)

/-- Rational subtraction, kernel-reducible (`qSub_eq : qSub a b = a - b`). -/
def qSub (a b : ℚ) : ℚ := Rat.divInt (a.num * b.den - b.num * a.den) (a.den * b.den)

/-- Rational multiplication, kernel-reducible (`qMul_eq : qMul a b = a * b`). -/
def qMul (a b : ℚ) : ℚ := Rat.divInt (a.num * b.num) (a.den * b.den)

/-- Rational division, kernel-reducible (`qDiv_eq : qDiv a b = a / b`;
both yield 0 for a zero divisor). -/
def qDiv (a b : ℚ) : ℚ := Rat.divInt (a.num * b.den) (a.den * b.num)

/-- Floor of a rational (`⌊q⌋`, matching Python's float→int floor). -/
def ratFloor (q : ℚ) : ℤ := q.num / q.den

/-- Python `round(x)`: round half to even. -/
def pyRound (q : ℚ) : ℤ :=
  let f := ratFloor q
  let r := qSub q (f : ℚ)
  if r < mkRat 1 2 then f
  else if mkRat 1 2 < r then f + 1
  else if f % 2 = 0 then f else f + 1

/-- Python `round(x, 3)`: round to 3 decimal places, half to even. -/
def pyRound3 (q : ℚ) : ℚ := qDiv (pyRound (qMul q 1000) : ℚ) 1000

/-- Python `max` on two rationals (`max(a, b)` returns `b` only when `a < b`). -/
def pyMax (a b : ℚ) : ℚ := if a < b then b else a

/-- Python `min` on two rationals. -/
def pyMin (a b : ℚ) : ℚ := if b < a then b else a

/-- Decimal digit character for a value `0`–`9`. -/
def digitChar : ℕ → Char
  | 0 => '0' | 1 => '1' | 2 => '2' | 3 => '3' | 4 => '4'
  | 5 => '5' | 6 => '6' | 7 => '7' | 8 => '8' | _ => '9'

/-- Decimal digits with explicit fuel (`n / 10 < n`, so `fuel = n`
suffices; the fuel-exhausted branch is unreachable from `natToDigits`). -/
def natDigitsAux : ℕ → ℕ → Str
  | _, 0 => ['0']
  | 0, _ => []
  | fuel + 1, n =>
    if n < 10 then [digitChar n]
    else natDigitsAux fuel (n / 10) ++ [digitChar (n % 10)]

/-- Decimal digits of a natural number, most significant first (Python `str`). -/
def natToDigits (n : ℕ) : Str := natDigitsAux n n

/-- Python format `f"{n:0w}"`: decimal rendering of the integer `n`,
left-padded with zeros to total width `w` (the sign counts toward `w`). -/
def pyPad (w : ℕ) (n : ℤ) : Str :=
  if n < 0 then
    let d := natToDigits n.natAbs
    '-' :: (List.replicate (w - 1 - d.length) '0' ++ d)
  else
    let d := natToDigits n.toNat
    List.replicate (w - d.length) '0' ++ d

/-- The caption segment record (`backend/caption_segment.py`). -/
structure CaptionSegment where
  start : ℚ
  «end» : ℚ
  text : Str
  deriving DecidableEq

/-- `srt_writer._to_srt_time`: seconds to `HH:MM:SS,mmm`. -/
def _to_srt_time (seconds : ℚ) : Str :=
  let milliseconds := pyRound (qMul seconds 1000)
  let hours := milliseconds / 3600000
  let rem := milliseconds % 3600000
  let minutes := rem / 60000
  let rem2 := rem % 60000
  let secs := rem2 / 1000
  let millis := rem2 % 1000
  pyPad 2 hours ++ ':' :: (pyPad 2 minutes ++ ':' :: (pyPad 2 secs ++ ',' :: pyPad 3 millis))

/-- The timing line `write_srt` emits for one segment
(`f"{start} --> {end}"`). -/
def srtTimeLine (s : CaptionSegment) : Str :=
  _to_srt_time s.start ++ ' ' :: '-' :: '-' :: '>' :: ' ' :: _to_srt_time s.«end»

/-- The block `write_srt` emits for one segment before the separating blank
line: index line, timing line, caption text.  Used to factor the round-trip
analysis of the emitted document. -/
def srtBlock (i : ℕ) (s : CaptionSegment) : Str :=
  natToDigits i ++ '\n' :: (srtTimeLine s ++ '\n' :: s.text)

/-- The four lines `write_srt` emits per segment, over a whole list,
with 1-based indices starting at `i`. -/
def srtLines (i : ℕ) : List CaptionSegment → List Str
  | [] => []
  | s :: rest => natToDigits i :: srtTimeLine s :: s.text :: [] :: srtLines (i + 1) rest

/-- `srt_writer.write_srt`: the document written to the output file
(`"\n".join(lines)` over index/time/text/blank quadruples). -/
def write_srt (segments : List CaptionSegment) : Str :=
  List.intercalate ['\n'] (srtLines 1 segments)

/-- Parse-failure value (`ValueError` raised by `srt_parser._to_seconds`). -/
inductive ParseErr where
  | invalidTimestamp (token : Str)
  deriving DecidableEq

instance {ε α : Type} [DecidableEq ε] [DecidableEq α] : DecidableEq (Except ε α) := fun x y =>
  match x, y with
  | .ok a, .ok b =>
    match decEq a b with
    | isTrue h => isTrue (h ▸ rfl)
    | isFalse h => isFalse (fun hh => h (Except.ok.inj hh))
  | .error a, .error b =>
    match decEq a b with
    | isTrue h => isTrue (h ▸ rfl)
    | isFalse h => isFalse (fun hh => h (Except.error.inj hh))
  | .ok _, .error _ => isFalse (fun hh => Except.noConfusion hh)
  | .error _, .ok _ => isFalse (fun hh => Except.noConfusion hh)

/-- Numeric value of a decimal digit character. -/
def digitVal (c : Char) : ℕ := c.toNat - 48

/-- `srt_parser._to_seconds`: strict fullmatch of `DD:DD:DD,DDD` after
stripping, reconstructed as rational seconds. -/
def _to_seconds (timestamp : Str) : Except ParseErr ℚ :=
  match pyStrip timestamp with
  | [h1, h2, ':', m1, m2, ':', s1, s2, ',', x1, x2, x3] =>
    if h1.isDigit && h2.isDigit && m1.isDigit && m2.isDigit && s1.isDigit && s2.isDigit &&
        x1.isDigit && x2.isDigit && x3.isDigit then
      let hours : ℚ := (10 * digitVal h1 + digitVal h2 : ℕ)
      let minutes : ℚ := (10 * digitVal m1 + digitVal m2 : ℕ)
      let seconds : ℚ := (10 * digitVal s1 + digitVal s2 : ℕ)
      let millis : ℚ := (100 * digitVal x1 + 10 * digitVal x2 + digitVal x3 : ℕ)
      .ok (qAdd (qAdd (qAdd (qMul hours 3600) (qMul minutes 60)) seconds) (qDiv millis 1000))
    else .error (.invalidTimestamp timestamp)
  | _ => .error (.invalidTimestamp timestamp)

/-- Split a list at the first occurrence of `pat`
(Python `s.split(pat, maxsplit=1)` when `pat` occurs; `none` otherwise). -/
def splitOnFirst (pat : Str) (s : Str) : Option (Str × Str) :=
  if pat <+: s then some ([], s.drop pat.length)
  else
    match s with
    | [] => none
    | c :: rest => (splitOnFirst pat rest).map (fun p => (c :: p.1, p.2))

/-- The literal separator token `-->`. -/
def arrowTok : Str := ['-', '-', '>']

/-- Per-block body of `parse_srt_file`'s loop, in decode order: blocks with
fewer than two non-blank lines or without `-->` on the second line are
skipped, empty caption text is skipped, and a malformed timestamp aborts
the whole decode. -/
def parseBlocks : List Str → Except ParseErr (List CaptionSegment)
  | [] => .ok []
  | b :: rest =>
    let lns := ((splitlinesPy b).filter (fun l => pyStrip l ≠ [])).map pyRstrip
    match lns with
    | _l0 :: l1 :: body =>
      match splitOnFirst arrowTok l1 with
      | none => parseBlocks rest
      | some (pre, post) =>
        let captionText := pyStrip (List.intercalate [' '] body)
        if captionText = [] then parseBlocks rest
        else do
          let s ← _to_seconds (pyStrip pre)
          let e ← _to_seconds (pyStrip post)
          let restSegs ← parseBlocks rest
          .ok ({ start := s, «end» := e, text := captionText } :: restSegs)
    | _ => parseBlocks rest

/-- `srt_parser.parse_srt_file` on the contents of the file: split on blank
lines, strip and drop empty blocks, then decode each block. -/
def parse_srt_file (text : Str) : Except ParseErr (List CaptionSegment) :=
  parseBlocks (((reSplitBlankPy text).map pyStrip).filter (fun b => b ≠ []))

/-- Whether a string starts with a non-whitespace character
(in particular, whether it is nonempty). -/
def headNonWs : Str → Bool
  | [] => false
  | c :: _ => !isSpacePy c

/-- Every `'\n'` in the string is immediately followed by a non-whitespace
character; such a string passes through the blank-line splitter unsplit. -/
def nlSafe : Str → Bool
  | [] => true
  | c :: rest => ((c != '\n') || headNonWs rest) && nlSafe rest

/-- The segment the codec round trip reproduces: both times rounded to
millisecond precision (`round(·, 3)`), the text unchanged. -/
def roundSeg (s : CaptionSegment) : CaptionSegment :=
  { start := pyRound3 s.start, «end» := pyRound3 s.«end», text := s.text }

/-- The segments the SRT codec can faithfully round-trip: non-negative
times below the 100-hour rollover of the two-digit hour field, and caption
text that is nonempty, already stripped, and free of line-break characters
(`write_srt` joins multi-line text into one block, which the parser reads
back with the line breaks replaced by spaces). -/
def SegWritable (s : CaptionSegment) : Prop :=
  0 ≤ s.start ∧ 0 ≤ s.«end» ∧
  pyRound (qMul s.start 1000) < 360000000 ∧ pyRound (qMul s.«end» 1000) < 360000000 ∧
  s.text ≠ [] ∧ pyStrip s.text = s.text ∧ ∀ c ∈ s.text, isEolPy c = false

instance (s : CaptionSegment) : Decidable (SegWritable s) := by
  unfold SegWritable; infer_instance

/-! ### Text normalizer (`lyric_sync._normalize`) -/

/-- Python's regex class `\w` (ASCII model: letters, digits, underscore;
Python additionally accepts non-ASCII word characters). -/
def isWordPy (c : Char) : Bool := c.isAlpha || c.isDigit || c == '_'

/-- `re.sub(r"[^\w\s]", " ", s)`: replace each character that is neither a
word character nor whitespace by one space. -/
def subPunct (s : Str) : Str := s.map (fun c => if isWordPy c || isSpacePy c then c else ' ')

/-- Fuel-indexed worker for `collapseWs` (`dropWhile` never lengthens a
list, so `fuel = s.length` suffices; the fuel-exhausted branch is
unreachable from `collapseWs`). -/
def collapseWsF : ℕ → Str → Str
  | _, [] => []
  | fuel + 1, c :: rest =>
    if isSpacePy c then ' ' :: collapseWsF fuel (rest.dropWhile isSpacePy)
    else c :: collapseWsF fuel rest
  | 0, s => s

/-- `re.sub(r"\s+", " ", s)`: collapse each maximal whitespace run to one space. -/
def collapseWs (s : Str) : Str := collapseWsF s.length s

/-- `lyric_sync._normalize`: lowercase and strip, replace non-word
non-space characters by spaces, collapse whitespace, strip. -/
def _normalize (text : Str) : Str :=
  let lowered := pyStrip (text.map Char.toLower)
  pyStrip (collapseWs (subPunct lowered))

/-- The Text Normalizer contract as the spec words it (with the word-class
amendment forced by the counterexample: underscores are word characters
and are kept): lowercase; replace every character that is not a letter,
digit, underscore, or whitespace with a single space; collapse consecutive
whitespace to one space; trim leading/trailing whitespace.  To be compared
with `_normalize`. -/
def specNormalize (text : Str) : Str :=
  pyStrip (collapseWs (subPunct (text.map Char.toLower)))

/-! ### Similarity ratio

`lyric_sync` scores candidates with `difflib.SequenceMatcher(None, a, b).ratio()`,
an external standard-library routine.  Modelled from the spec: "a
character-sequence similarity measure in [0,1], order-preserving
longest-common-subsequence-style ratio — e.g. the classic two-sequence
matching-block ratio".  This is difflib's ratio without the autojunk
heuristic (which only engages for sequences of length ≥ 200): twice the
total size of the recursively chosen longest matching blocks divided by
the combined length. -/

/-- Length of the common run of `a` and `b` ending at positions `i`, `j`
(inclusive) and starting no earlier than `alo`/`blo` — the `j2len` dynamic
program of `SequenceMatcher.find_longest_match`. -/
def suffLen (a b : Str) (alo blo : ℕ) : ℕ → ℕ → ℕ
  | 0, j => if alo = 0 ∧ blo ≤ j ∧ a[0]? = b[j]? ∧ (a[0]?).isSome then 1 else 0
  | i + 1, 0 => if alo ≤ i + 1 ∧ blo = 0 ∧ a[i + 1]? = b[0]? ∧ (a[i + 1]?).isSome then 1 else 0
  | i + 1, j + 1 =>
    if alo ≤ i + 1 ∧ blo ≤ j + 1 ∧ a[i + 1]? = b[j + 1]? ∧ (a[i + 1]?).isSome then
      suffLen a b alo blo i j + 1
    else 0

/-- One candidate step of `find_longest_match`: strictly better runs win,
so the earliest maximal `(i, j)` pair in scan order is kept. -/
def flmStep (a b : Str) (alo blo : ℕ) (best : ℕ × ℕ × ℕ) (p : ℕ × ℕ) : ℕ × ℕ × ℕ :=
  if best.2.2 < suffLen a b alo blo p.1 p.2 then
    (p.1 + 1 - suffLen a b alo blo p.1 p.2, p.2 + 1 - suffLen a b alo blo p.1 p.2,
      suffLen a b alo blo p.1 p.2)
  else best

/-- All scan positions of `find_longest_match` in scan order (`i`
ascending, then `j` ascending; difflib only visits `j` with
`b[j] = a[i]`, but the skipped pairs have run length 0 and never
update the strict maximum). -/
def candPairs (alo ahi blo bhi : ℕ) : List (ℕ × ℕ) :=
  (List.range' alo (ahi - alo)).flatMap fun i => (List.range' blo (bhi - blo)).map fun j => (i, j)

/-- `SequenceMatcher.find_longest_match` on `[alo, ahi) × [blo, bhi)`:
returns `(besti, bestj, bestsize)`, initialised to `(alo, blo, 0)`. -/
def find_longest_match (a b : Str) (alo ahi blo bhi : ℕ) : ℕ × ℕ × ℕ :=
  (candPairs alo ahi blo bhi).foldl (flmStep a b alo blo) (alo, blo, 0)

/-- Fuel-indexed worker for `matchTotal`: the recursion of
`get_matching_blocks` strictly shrinks `ahi - alo` (a non-empty best match
`(i, j, k)` has `alo ≤ i` and `i + k ≤ ahi` with `k ≥ 1`), so
`fuel = ahi - alo` suffices; the fuel-exhausted branch is unreachable from
`matchTotal` because `ahi - alo = 0` forces an empty scan and best size 0. -/
def matchTotalF (a b : Str) : ℕ → ℕ → ℕ → ℕ → ℕ → ℕ
  | 0, _, _, _, _ => 0
  | fuel + 1, alo, ahi, blo, bhi =>
    if (find_longest_match a b alo ahi blo bhi).2.2 = 0 then 0
    else
      matchTotalF a b fuel alo (find_longest_match a b alo ahi blo bhi).1 blo
          (find_longest_match a b alo ahi blo bhi).2.1 +
        (find_longest_match a b alo ahi blo bhi).2.2 +
        matchTotalF a b fuel
          ((find_longest_match a b alo ahi blo bhi).1 +
            (find_longest_match a b alo ahi blo bhi).2.2) ahi
          ((find_longest_match a b alo ahi blo bhi).2.1 +
            (find_longest_match a b alo ahi blo bhi).2.2) bhi

/-- Total size of the matching blocks of `SequenceMatcher.get_matching_blocks`
on the range `[alo, ahi) × [blo, bhi)`: recursively take the longest match
and recurse on both sides. -/
def matchTotal (a b : Str) (alo ahi blo bhi : ℕ) : ℕ :=
  matchTotalF a b (ahi - alo) alo ahi blo bhi

/-- `SequenceMatcher(None, a, b).ratio()`: `2 * M / T` where `M` is the
total matching-block size and `T` the combined length (`1.0` when both
sequences are empty). -/
def simScore (a b : Str) : ℚ :=
  if a.length + b.length = 0 then 1
  else qDiv (qMul 2 ((matchTotal a b 0 a.length 0 b.length : ℕ) : ℚ)) ((a.length + b.length : ℕ) : ℚ)

/-! ### Lyric aligner (`lyric_sync.py`) -/

/-- `LyricSyncError`: raised for empty reference text and for an alignment
that produced no segments. -/
inductive LyricSyncError where
  | emptyLyrics
  | noAlignment
  deriving DecidableEq

/-- `lyric_sync.parse_lyrics_lines`: strip each line, drop blanks, fail if
nothing remains. -/
def parse_lyrics_lines (rawLyrics : Str) : Except LyricSyncError (List Str) :=
  let cleaned := ((splitlinesPy rawLyrics).map pyStrip).filter (fun l => l ≠ [])
  if cleaned = [] then .error .emptyLyrics else .ok cleaned

/-- The windowed scoring loop of `sync_segments_to_lyrics`: best index and
score over `[lyricIdx, min(len(lines), lyricIdx+6))`, initialised to
`(lyricIdx, -1.0)`, strict improvement only (ties keep the earliest). -/
def bestInWindow (lyricsLines : List Str) (segNorm : Str) (lyricIdx : ℕ) : ℕ × ℚ :=
  (List.range' lyricIdx (min lyricsLines.length (lyricIdx + 6) - lyricIdx)).foldl
    (fun best idx =>
      if best.2 < simScore segNorm (_normalize (lyricsLines.getD idx [])) then
        (idx, simScore segNorm (_normalize (lyricsLines.getD idx [])))
      else best)
    (lyricIdx, -1)

/-- The main loop of `sync_segments_to_lyrics` over the remaining segments
with cursor `lyricIdx`: stop when the lines are exhausted, skip segments
with empty normalized text, otherwise assign the fallback line at the
cursor (advance by 1) or the best-scoring line (advance past it). -/
def syncAux (lyricsLines : List Str) (minSimilarity : ℚ) :
    List CaptionSegment → ℕ → List CaptionSegment
  | [], _ => []
  | seg :: rest, lyricIdx =>
    if lyricsLines.length ≤ lyricIdx then []
    else if _normalize seg.text = [] then syncAux lyricsLines minSimilarity rest lyricIdx
    else if (bestInWindow lyricsLines (_normalize seg.text) lyricIdx).2 < minSimilarity then
      { start := seg.start, «end» := seg.«end», text := lyricsLines.getD lyricIdx [] } ::
        syncAux lyricsLines minSimilarity rest (lyricIdx + 1)
    else
      { start := seg.start, «end» := seg.«end»,
        text := lyricsLines.getD (bestInWindow lyricsLines (_normalize seg.text) lyricIdx).1 [] } ::
        syncAux lyricsLines minSimilarity rest
          ((bestInWindow lyricsLines (_normalize seg.text) lyricIdx).1 + 1)

/-- Instrumented copy of `syncAux` that also records, for each consumed
segment, the cursor value at consumption and the index of the assigned
reference line. -/
def syncAuxT (lyricsLines : List Str) (minSimilarity : ℚ) :
    List CaptionSegment → ℕ → List (CaptionSegment × ℕ × ℕ)
  | [], _ => []
  | seg :: rest, lyricIdx =>
    if lyricsLines.length ≤ lyricIdx then []
    else if _normalize seg.text = [] then syncAuxT lyricsLines minSimilarity rest lyricIdx
    else if (bestInWindow lyricsLines (_normalize seg.text) lyricIdx).2 < minSimilarity then
      ({ start := seg.start, «end» := seg.«end», text := lyricsLines.getD lyricIdx [] },
        lyricIdx, lyricIdx) ::
        syncAuxT lyricsLines minSimilarity rest (lyricIdx + 1)
    else
      ({ start := seg.start, «end» := seg.«end»,
         text := lyricsLines.getD (bestInWindow lyricsLines (_normalize seg.text) lyricIdx).1 [] },
        lyricIdx, (bestInWindow lyricsLines (_normalize seg.text) lyricIdx).1) ::
        syncAuxT lyricsLines minSimilarity rest
          ((bestInWindow lyricsLines (_normalize seg.text) lyricIdx).1 + 1)

/-- `lyric_sync.sync_segments_to_lyrics`: run the loop from cursor 0 and
fail if it produced nothing. -/
def sync_segments_to_lyrics (segments : List CaptionSegment) (lyricsLines : List Str)
    (minSimilarity : ℚ) : Except LyricSyncError (List CaptionSegment) :=
  if syncAux lyricsLines minSimilarity segments 0 = [] then .error .noAlignment
  else .ok (syncAux lyricsLines minSimilarity segments 0)

/-- `CaptionEditorWindow.sync_lyrics_to_segments`: parse the pasted lyrics,
run the aligner, and on success overwrite the text of the first
`len(synced)` timeline segments; any `LyricSyncError` leaves the timeline
unmodified. -/
def sync_lyrics_to_segments (segments : List CaptionSegment) (rawLyrics : Str)
    (similarity : ℚ) : List CaptionSegment :=
  if segments = [] then segments
  else
    match parse_lyrics_lines rawLyrics with
    | .error _ => segments
    | .ok lyricsLines =>
      match sync_segments_to_lyrics segments lyricsLines similarity with
      | .error _ => segments
      | .ok synced =>
        segments.mapIdx fun idx s =>
          match synced[idx]? with
          | some t => { s with text := t.text }
          | none => s

/-! ### Timeline editor model (`ui/editor.py`) -/

/-- `CaptionBlock.MIN_WIDTH` (pixels). -/
def MIN_WIDTH : ℚ := 24

/-- The editor's `TimelineView` pixels-per-second scale (default 120.0). -/
def PIXELS_PER_SECOND : ℚ := 120

/-- The three drag modes of `CaptionBlock._handle_at`. -/
inductive DragMode where
  | move
  | left
  | right
  deriving DecidableEq

/-- Block x-position set by `refresh_from_segment`. -/
def blockOrigX (pps : ℚ) (s : CaptionSegment) : ℚ := qMul s.start pps

/-- `CaptionBlock.duration`: `max(0.1, end - start)`. -/
def blockDuration (s : CaptionSegment) : ℚ := pyMax (mkRat 1 10) (qSub s.«end» s.start)

/-- Block width set by `refresh_from_segment`: `max(MIN_WIDTH, duration * pps)`. -/
def blockOrigW (pps : ℚ) (s : CaptionSegment) : ℚ := pyMax MIN_WIDTH (qMul (blockDuration s) pps)

/-- `CaptionBlock.mouseMoveEvent`: new `(x, width)` from the drag-origin
geometry and the pointer delta, with the minimum-width clamp on resize. -/
def dragGeometry (mode : DragMode) (origX origW delta : ℚ) : ℚ × ℚ :=
  match mode with
  | .move => (pyMax 0 (qAdd origX delta), origW)
  | .left =>
    if qSub origW delta < MIN_WIDTH then
      (pyMax 0 (qAdd origX (qSub origW MIN_WIDTH)), MIN_WIDTH)
    else (pyMax 0 (qAdd origX delta), qSub origW delta)
  | .right => (origX, pyMax MIN_WIDTH (qAdd origW delta))

/-- `CaptionBlock._update_segment_from_geometry`: geometry back to times,
rounded to 3 decimal places. -/
def _update_segment_from_geometry (pps x w : ℚ) (s : CaptionSegment) : CaptionSegment :=
  { s with
    start := pyRound3 (pyMax 0 (qDiv x pps)),
    «end» := pyRound3 (qAdd (pyMax 0 (qDiv x pps)) (pyMax (mkRat 1 10) (qDiv w pps))) }

/-- One drag gesture (press on a refreshed block, move by `delta`,
release): `mouseMoveEvent` geometry plus `_update_segment_from_geometry`;
neither the move nor the release re-sorts the collection. -/
def dragSegment (pps : ℚ) (mode : DragMode) (delta : ℚ) (s : CaptionSegment) : CaptionSegment :=
  _update_segment_from_geometry pps
    (dragGeometry mode (blockOrigX pps s) (blockOrigW pps s) delta).1
    (dragGeometry mode (blockOrigX pps s) (blockOrigW pps s) delta).2 s

/-- The sort key order of `_sort_segments` (`key=(start, end)`, non-strict). -/
def segKeyLe (a b : CaptionSegment) : Prop :=
  a.start < b.start ∨ (a.start = b.start ∧ a.«end» ≤ b.«end»)

/-- Strict version of `segKeyLe`. -/
def segKeyLt (a b : CaptionSegment) : Prop :=
  a.start < b.start ∨ (a.start = b.start ∧ a.«end» < b.«end»)

instance (a b : CaptionSegment) : Decidable (segKeyLe a b) := by
  unfold segKeyLe
  infer_instance

instance (a b : CaptionSegment) : Decidable (segKeyLt a b) := by
  unfold segKeyLt
  infer_instance

/-- Stable insertion into a `(start, end)`-sorted list: a new element goes
after all elements with an equal key. -/
def insSorted (s : CaptionSegment) : List CaptionSegment → List CaptionSegment
  | [] => [s]
  | t :: ts => if segKeyLt s t then s :: t :: ts else t :: insSorted s ts

/-- `CaptionEditorWindow._sort_segments`: Python's stable
`list.sort(key=lambda seg: (seg.start, seg.end))`, realised as a stable
insertion sort. -/
def _sort_segments (l : List CaptionSegment) : List CaptionSegment :=
  l.foldl (fun acc s => insSorted s acc) []

/-- The Timeline Manager mutations of the editor window.  `load` models
opening a video/SRT (`open_srt` / `generate_captions_from_video`),
`applyEdit` is `apply_selected_caption_edit` on the segment at `idx`,
`insertAtPlayhead` is `add_caption_at_playhead` with the player position
in milliseconds, `delete` is `delete_selected_caption`, and `drag` is a
`CaptionBlock` drag gesture (move/resize plus release). -/
inductive Mutation where
  | load (segments : List CaptionSegment)
  | applyEdit (idx : ℕ) (startVal endVal : ℚ) (text : Str)
  | insertAtPlayhead (positionMs : ℚ)
  | delete (idx : ℕ)
  | drag (idx : ℕ) (mode : DragMode) (delta : ℚ)

/-- Apply one editor mutation to the segment collection. -/
def applyMutation (segs : List CaptionSegment) : Mutation → List CaptionSegment
  | .load newSegs => _sort_segments newSegs
  | .applyEdit idx startVal endVal text =>
    match segs[idx]? with
    | none => segs
    | some s =>
      if pyRound3 endVal ≤ pyRound3 startVal then segs
      else if pyStrip text = [] then segs
      else
        _sort_segments (segs.set idx
          { s with start := pyRound3 startVal, «end» := pyRound3 endVal, text := pyStrip text })
  | .insertAtPlayhead positionMs =>
    _sort_segments (segs ++
      [{ start := pyRound3 (pyMax 0 (qDiv positionMs 1000)),
         «end» := pyRound3 (qAdd (pyMax 0 (qDiv positionMs 1000)) 2),
         text := "New caption".toList }])
  | .delete idx => if idx < segs.length then segs.eraseIdx idx else segs
  | .drag idx mode delta =>
    match segs[idx]? with
    | none => segs
    | some s => segs.set idx (dragSegment PIXELS_PER_SECOND mode delta s)

/-- Apply a sequence of editor mutations starting from the empty session. -/
def applyMutations (ms : List Mutation) : List CaptionSegment :=
  ms.foldl applyMutation []

/-- Whether a mutation is a geometry drag gesture. -/
def Mutation.isDrag : Mutation → Bool
  | .drag _ _ _ => true
  | _ => false

/-! ### Export progress parser (`_parse_ffmpeg_progress`) -/

/-- The literal key prefix `out_time_ms=`. -/
def outTimeTok : Str := "out_time_ms=".toList

/-- Python `line.split("=", 1)[1]` for a line known to contain `=`. -/
def afterFirstEq (l : Str) : Str := (l.dropWhile (fun c => c ≠ '=')).drop 1

/-- Trailing part of a Python integer literal after the leading digit:
digits with single interior underscores. -/
def digitsTail : Str → Bool
  | [] => true
  | '_' :: c :: rest => c.isDigit && digitsTail rest
  | '_' :: [] => false
  | c :: rest => c.isDigit && digitsTail rest

/-- Python `int(s)` digit-sequence check (after sign removal). -/
def digitsOk : Str → Bool
  | [] => false
  | c :: rest => c.isDigit && digitsTail rest

/-- Decimal value of a digit sequence, skipping underscores. -/
def digitsVal (s : Str) : ℤ :=
  s.foldl (fun acc c => if c == '_' then acc else 10 * acc + (digitVal c : ℤ)) 0

/-- Python `int(s)` on a string: strip, optional sign, digits with
underscores; `none` models `ValueError`. -/
def pyInt (s : Str) : Option ℤ :=
  match pyStrip s with
  | '+' :: rest => if digitsOk rest then some (digitsVal rest) else none
  | '-' :: rest => if digitsOk rest then some (-digitsVal rest) else none
  | t => if digitsOk t then some (digitsVal t) else none

/-- `max((seg.end for seg in segs), default=0.0)`. -/
def maxEnd : List CaptionSegment → ℚ
  | [] => 0
  | s :: rest => rest.foldl (fun m t => pyMax m t.«end») s.«end»

/-- `CaptionEditorWindow._parse_ffmpeg_progress`: `fileContent = none`
models a missing or unreadable progress file.  Scans every line, keeping
the last well-formed `out_time_ms=` integer (malformed values skipped),
then divides the elapsed seconds by the max segment end (or by the
media-player fallback duration) and clamps to `[0, 100]`. -/
def _parse_ffmpeg_progress (fileContent : Option Str) (segs : List CaptionSegment)
    (mediaDurationMs : ℚ) : ℚ :=
  match fileContent with
  | none => 0
  | some text =>
    let outTimeMs : ℤ := (splitlinesPy text).foldl
      (fun acc line =>
        if outTimeTok <+: line then
          match pyInt (afterFirstEq line) with
          | some v => v
          | none => acc
        else acc) 0
    let duration :=
      if maxEnd segs ≤ 0 then pyMax (mkRat 1 10) (qDiv mediaDurationMs 1000) else maxEnd segs
    pyMax 0 (pyMin 100 (qMul (qDiv (qDiv (outTimeMs : ℚ) 1000000) duration) 100))

/-! ## Theorems -/

/-! ### The reducible rational operations agree with the field operations -/

theorem qAdd_eq (a b : ℚ) : qAdd a b = a + b := by
  unfold qAdd
  conv_rhs => rw [← Rat.num_divInt_den a, ← Rat.num_divInt_den b]
  rw [Rat.divInt_add_divInt _ _ (Int.ofNat_ne_zero.2 a.den_nz) (Int.ofNat_ne_zero.2 b.den_nz)]

theorem qSub_eq (a b : ℚ) : qSub a b = a - b := by
  unfold qSub
  conv_rhs => rw [← Rat.num_divInt_den a, ← Rat.num_divInt_den b]
  rw [Rat.divInt_sub_divInt _ _ (Int.ofNat_ne_zero.2 a.den_nz) (Int.ofNat_ne_zero.2 b.den_nz)]

theorem qMul_eq (a b : ℚ) : qMul a b = a * b := by
  unfold qMul
  rw [← Rat.divInt_mul_divInt' a.num a.den b.num b.den, Rat.num_divInt_den, Rat.num_divInt_den]

theorem qDiv_eq (a b : ℚ) : qDiv a b = a / b := (Rat.div_def' a b).symm

/-- C7.  Format A exact serialization: encoding `(0.0, 1.5, "Hi")` and
`(1.5, 3.0, "There")` with `write_srt` produces exactly the document
`"1\n00:00:00,000 --> 00:00:01,500\nHi\n\n2\n00:00:01,500 --> 00:00:03,000\nThere\n"`
(1-based indices, comma millisecond separator, zero-padded fields, blank
separator line between blocks). -/
theorem write_srt_two_segment_document :
    write_srt [{ start := 0, «end» := mkRat 3 2, text := "Hi".toList },
               { start := mkRat 3 2, «end» := 3, text := "There".toList }] =
      "1\n00:00:00,000 --> 00:00:01,500\nHi\n\n2\n00:00:01,500 --> 00:00:03,000\nThere\n".toList := by
  decide

/-- C10.  The Format A decoder performs no time-range validation: a block
whose end timestamp precedes its start timestamp decodes successfully into
a segment with `end < start`, violating the data model's `end > start`
invariant at the decode boundary. -/
theorem parse_srt_accepts_reversed_range :
    parse_srt_file "1\n00:00:02,000 --> 00:00:01,000\nHi\n".toList =
        .ok [{ start := 2, «end» := 1, text := "Hi".toList }] ∧
      ((1 : ℚ) ≤ 2) := by
  constructor
  · decide
  · norm_num

/-! ### Sort invariant (C2) -/

theorem segKeyLe_of_lt {a b : CaptionSegment} (h : segKeyLt a b) : segKeyLe a b := by
  rcases h with h | ⟨he, h⟩
  · exact Or.inl h
  · exact Or.inr ⟨he, le_of_lt h⟩

theorem segKeyLe_of_not_lt {a b : CaptionSegment} (h : ¬ segKeyLt a b) : segKeyLe b a := by
  unfold segKeyLt at h
  push_neg at h
  rcases lt_trichotomy b.start a.start with hlt | heq | hgt
  · exact Or.inl hlt
  · exact Or.inr ⟨heq, h.2 heq.symm⟩
  · exact absurd hgt (not_lt.mpr h.1)

theorem segKeyLe_trans {a b c : CaptionSegment} (h1 : segKeyLe a b) (h2 : segKeyLe b c) :
    segKeyLe a c := by
  rcases h1 with h1 | ⟨e1, h1⟩ <;> rcases h2 with h2 | ⟨e2, h2⟩
  · exact Or.inl (lt_trans h1 h2)
  · exact Or.inl (e2 ▸ h1)
  · exact Or.inl (e1 ▸ h2)
  · exact Or.inr ⟨e1.trans e2, le_trans h1 h2⟩

theorem mem_insSorted {s x : CaptionSegment} {l : List CaptionSegment} :
    x ∈ insSorted s l ↔ x = s ∨ x ∈ l := by
  induction l with
  | nil => simp [insSorted]
  | cons t ts ih =>
    unfold insSorted
    split
    · simp only [List.mem_cons]
    · simp only [List.mem_cons, ih]
      tauto

theorem pairwise_insSorted {s : CaptionSegment} {l : List CaptionSegment}
    (h : List.Pairwise segKeyLe l) : List.Pairwise segKeyLe (insSorted s l) := by
  induction l with
  | nil => simp [insSorted]
  | cons t ts ih =>
    unfold insSorted
    split
    · rename_i hlt
      refine List.Pairwise.cons ?_ h
      intro x hx
      rcases List.mem_cons.mp hx with rfl | hx
      · exact segKeyLe_of_lt hlt
      · exact segKeyLe_trans (segKeyLe_of_lt hlt) (List.rel_of_pairwise_cons h hx)
    · rename_i hnlt
      rcases h with _ | ⟨hts, h⟩
      refine List.Pairwise.cons ?_ (ih h)
      intro x hx
      rcases mem_insSorted.mp hx with rfl | hx
      · exact segKeyLe_of_not_lt hnlt
      · exact hts x hx

theorem sort_segments_pairwise (l : List CaptionSegment) :
    List.Pairwise segKeyLe (_sort_segments l) := by
  unfold _sort_segments
  have : ∀ acc : List CaptionSegment, List.Pairwise segKeyLe acc →
      List.Pairwise segKeyLe (l.foldl (fun acc s => insSorted s acc) acc) := by
    induction l with
    | nil => intro acc h; exact h
    | cons t ts ih =>
      intro acc h
      exact ih (insSorted t acc) (pairwise_insSorted h)
  exact this [] List.Pairwise.nil

theorem applyMutation_pairwise {segs : List CaptionSegment} {m : Mutation}
    (hm : m.isDrag = false) (h : List.Pairwise segKeyLe segs) :
    List.Pairwise segKeyLe (applyMutation segs m) := by
  cases m with
  | load newSegs => exact sort_segments_pairwise newSegs
  | applyEdit idx startVal endVal text =>
    simp only [applyMutation]
    cases segs[idx]? with
    | none => exact h
    | some s =>
      by_cases h1 : pyRound3 endVal ≤ pyRound3 startVal
      · rw [if_pos h1]
        exact h
      · rw [if_neg h1]
        by_cases h2 : pyStrip text = []
        · rw [if_pos h2]
          exact h
        · rw [if_neg h2]
          exact sort_segments_pairwise _
  | insertAtPlayhead positionMs => exact sort_segments_pairwise _
  | delete idx =>
    simp only [applyMutation]
    split
    · exact h.sublist (List.eraseIdx_sublist segs idx)
    · exact h
  | drag idx mode delta => simp [Mutation.isDrag] at hm

/-- C2, amended.  After any sequence of non-drag Timeline Manager mutations
(load, apply-edit, insert-at-playhead, delete) the segment collection is
non-decreasing in the key `(start, end)`; the geometry drag (excluded
here, see the counterexample) does not restore the sort order on release. -/
theorem timeline_sorted_of_no_drag (ms : List Mutation)
    (hnd : ∀ m ∈ ms, m.isDrag = false) :
    List.Pairwise segKeyLe (applyMutations ms) := by
  suffices hgen : ∀ ms2 : List Mutation, (∀ m ∈ ms2, m.isDrag = false) →
      ∀ segs : List CaptionSegment, List.Pairwise segKeyLe segs →
        List.Pairwise segKeyLe (ms2.foldl applyMutation segs) from
    hgen ms hnd [] List.Pairwise.nil
  intro ms2
  induction ms2 with
  | nil => intro _ segs h; exact h
  | cons m rest ih =>
    intro hnd2 segs h
    simp only [List.foldl_cons]
    exact ih (fun m2 hm2 => hnd2 m2 (List.mem_cons_of_mem m hm2)) _
      (applyMutation_pairwise (hnd2 m (List.mem_cons_self m rest)) h)

/-- C2, counterexample.  The claim fails as stated: loading two sorted
segments and then dragging the first one past the second (a move gesture
of +600 px = +5 s, including its release) leaves the collection
`[(5,6), (2,3)]`, which is not sorted by `(start, end)`; no mutation
re-sorts on drag release. -/
theorem timeline_sorted_cex :
    ¬ List.Pairwise segKeyLe
        (applyMutations
          [.load [{ start := 0, «end» := 1, text := "a".toList },
                  { start := 2, «end» := 3, text := "b".toList }],
           .drag 0 .move 600]) := by
  decide

/-- Witness for `timeline_sorted_of_no_drag` at a concrete mutation
sequence containing a load, an edit, an insert and a delete. -/
theorem timeline_sorted_of_no_drag_witness :
    List.Pairwise segKeyLe
      (applyMutations
        [.load [{ start := 2, «end» := 3, text := "b".toList },
                { start := 0, «end» := 1, text := "a".toList }],
         .applyEdit 0 4 5 " moved ".toList,
         .insertAtPlayhead 1500,
         .delete 1]) :=
  timeline_sorted_of_no_drag _ (by decide)

/-! ### Alignment monotonicity (C3) -/

theorem bestInWindow_fst_ge (lyricsLines : List Str) (segNorm : Str) (lyricIdx : ℕ) :
    lyricIdx ≤ (bestInWindow lyricsLines segNorm lyricIdx).1 := by
  unfold bestInWindow
  have hgen : ∀ (js : List ℕ), (∀ j ∈ js, lyricIdx ≤ j) → ∀ best : ℕ × ℚ, lyricIdx ≤ best.1 →
      lyricIdx ≤ (js.foldl
        (fun best idx =>
          if best.2 < simScore segNorm (_normalize (lyricsLines.getD idx [])) then
            (idx, simScore segNorm (_normalize (lyricsLines.getD idx [])))
          else best)
        best).1 := by
    intro js
    induction js with
    | nil => intro _ best h; exact h
    | cons j js ih =>
      intro hmem best h
      simp only [List.foldl_cons]
      apply ih (fun j2 hj2 => hmem j2 (List.mem_cons_of_mem j hj2))
      split
      · exact hmem j (List.mem_cons_self j js)
      · exact h
  apply hgen
  · intro j hj
    exact (List.mem_range'_1.mp hj).1
  · exact le_refl lyricIdx

theorem syncAuxT_bounds (lyricsLines : List Str) (minSimilarity : ℚ) :
    ∀ (segs : List CaptionSegment) (lyricIdx : ℕ),
      ∀ p ∈ syncAuxT lyricsLines minSimilarity segs lyricIdx,
        lyricIdx ≤ p.2.1 ∧ p.2.1 ≤ p.2.2 := by
  intro segs
  induction segs with
  | nil => intro lyricIdx p hp; simp [syncAuxT] at hp
  | cons seg rest ih =>
    intro lyricIdx p hp
    unfold syncAuxT at hp
    by_cases hlen : lyricsLines.length ≤ lyricIdx
    · rw [if_pos hlen] at hp
      simp at hp
    · rw [if_neg hlen] at hp
      by_cases hnorm : _normalize seg.text = []
      · rw [if_pos hnorm] at hp
        exact ih lyricIdx p hp
      · rw [if_neg hnorm] at hp
        by_cases hsc : (bestInWindow lyricsLines (_normalize seg.text) lyricIdx).2 < minSimilarity
        · rw [if_pos hsc] at hp
          rcases List.mem_cons.mp hp with rfl | hp
          · exact ⟨le_refl _, le_refl _⟩
          · have := ih (lyricIdx + 1) p hp
            omega
        · rw [if_neg hsc] at hp
          rcases List.mem_cons.mp hp with rfl | hp
          · exact ⟨le_refl _, bestInWindow_fst_ge lyricsLines (_normalize seg.text) lyricIdx⟩
          · have h1 := ih ((bestInWindow lyricsLines (_normalize seg.text) lyricIdx).1 + 1) p hp
            have h2 := bestInWindow_fst_ge lyricsLines (_normalize seg.text) lyricIdx
            omega

theorem syncAuxT_fst_map (lyricsLines : List Str) (minSimilarity : ℚ) :
    ∀ (segs : List CaptionSegment) (lyricIdx : ℕ),
      (syncAuxT lyricsLines minSimilarity segs lyricIdx).map Prod.fst =
        syncAux lyricsLines minSimilarity segs lyricIdx := by
  intro segs
  induction segs with
  | nil => intro lyricIdx; rfl
  | cons seg rest ih =>
    intro lyricIdx
    unfold syncAuxT syncAux
    by_cases hlen : lyricsLines.length ≤ lyricIdx
    · rw [if_pos hlen, if_pos hlen]
      rfl
    · rw [if_neg hlen, if_neg hlen]
      by_cases hnorm : _normalize seg.text = []
      · rw [if_pos hnorm, if_pos hnorm]
        exact ih lyricIdx
      · rw [if_neg hnorm, if_neg hnorm]
        by_cases hsc : (bestInWindow lyricsLines (_normalize seg.text) lyricIdx).2 < minSimilarity
        · rw [if_pos hsc, if_pos hsc]
          simp only [List.map_cons, ih]
        · rw [if_neg hsc, if_neg hsc]
          simp only [List.map_cons, ih]

theorem syncAuxT_chain (lyricsLines : List Str) (minSimilarity : ℚ) :
    ∀ (segs : List CaptionSegment) (lyricIdx : ℕ),
      List.Chain'
        (fun p q : CaptionSegment × ℕ × ℕ => p.2.1 + 1 ≤ q.2.1 ∧ p.2.2 + 1 ≤ q.2.1)
        (syncAuxT lyricsLines minSimilarity segs lyricIdx) := by
  intro segs
  induction segs with
  | nil => intro lyricIdx; simp [syncAuxT]
  | cons seg rest ih =>
    intro lyricIdx
    unfold syncAuxT
    by_cases hlen : lyricsLines.length ≤ lyricIdx
    · rw [if_pos hlen]
      simp
    · rw [if_neg hlen]
      by_cases hnorm : _normalize seg.text = []
      · rw [if_pos hnorm]
        exact ih lyricIdx
      · rw [if_neg hnorm]
        by_cases hsc : (bestInWindow lyricsLines (_normalize seg.text) lyricIdx).2 < minSimilarity
        · rw [if_pos hsc]
          rw [List.chain'_cons']
          refine ⟨?_, ih (lyricIdx + 1)⟩
          intro q hq
          have hmem : q ∈ syncAuxT lyricsLines minSimilarity rest (lyricIdx + 1) :=
            List.mem_of_mem_head? hq
          have := syncAuxT_bounds lyricsLines minSimilarity rest (lyricIdx + 1) q hmem
          simp only
          omega
        · rw [if_neg hsc]
          rw [List.chain'_cons']
          refine ⟨?_, ih ((bestInWindow lyricsLines (_normalize seg.text) lyricIdx).1 + 1)⟩
          intro q hq
          have hmem : q ∈ syncAuxT lyricsLines minSimilarity rest
              ((bestInWindow lyricsLines (_normalize seg.text) lyricIdx).1 + 1) :=
            List.mem_of_mem_head? hq
          have := syncAuxT_bounds lyricsLines minSimilarity rest _ q hmem
          have hgt := bestInWindow_fst_ge lyricsLines (_normalize seg.text) lyricIdx
          simp only
          omega

theorem syncAuxT_pairwise (lyricsLines : List Str) (minSimilarity : ℚ) :
    ∀ (segs : List CaptionSegment) (lyricIdx : ℕ),
      List.Pairwise (fun p q : CaptionSegment × ℕ × ℕ => p.2.2 < q.2.2)
        (syncAuxT lyricsLines minSimilarity segs lyricIdx) := by
  intro segs
  induction segs with
  | nil => intro lyricIdx; simp [syncAuxT]
  | cons seg rest ih =>
    intro lyricIdx
    unfold syncAuxT
    by_cases hlen : lyricsLines.length ≤ lyricIdx
    · rw [if_pos hlen]
      simp
    · rw [if_neg hlen]
      by_cases hnorm : _normalize seg.text = []
      · rw [if_pos hnorm]
        exact ih lyricIdx
      · rw [if_neg hnorm]
        by_cases hsc : (bestInWindow lyricsLines (_normalize seg.text) lyricIdx).2 < minSimilarity
        · rw [if_pos hsc]
          refine List.Pairwise.cons ?_ (ih (lyricIdx + 1))
          intro q hq
          have := syncAuxT_bounds lyricsLines minSimilarity rest (lyricIdx + 1) q hq
          simp only
          omega
        · rw [if_neg hsc]
          refine List.Pairwise.cons ?_ (ih _)
          intro q hq
          have := syncAuxT_bounds lyricsLines minSimilarity rest _ q hq
          simp only
          omega

/-- C3.  Alignment monotonicity: instrumenting one run of the aligner with
(cursor-at-consumption, assigned-line-index) pairs — the instrumented run
projects back onto `syncAux` itself — the consumption cursors are
non-decreasing and grow by at least 1 per consumed segment (each next
cursor is past the previous assigned index), and the assigned reference
line indices are strictly increasing, so no reference line is reused or
reordered. -/
theorem sync_alignment_monotone (lyricsLines : List Str) (minSimilarity : ℚ)
    (segs : List CaptionSegment) :
    (syncAuxT lyricsLines minSimilarity segs 0).map Prod.fst =
        syncAux lyricsLines minSimilarity segs 0 ∧
      List.Chain' (fun p q : CaptionSegment × ℕ × ℕ => p.2.1 + 1 ≤ q.2.1)
        (syncAuxT lyricsLines minSimilarity segs 0) ∧
      List.Pairwise (fun p q : CaptionSegment × ℕ × ℕ => p.2.2 < q.2.2)
        (syncAuxT lyricsLines minSimilarity segs 0) := by
  refine ⟨syncAuxT_fst_map lyricsLines minSimilarity segs 0, ?_,
    syncAuxT_pairwise lyricsLines minSimilarity segs 0⟩
  exact (syncAuxT_chain lyricsLines minSimilarity segs 0).imp fun _ _ h => h.1

/-! ### Alignment fallback (C4) -/

theorem simScore_nonneg (a b : Str) : 0 ≤ simScore a b := by
  unfold simScore
  split
  · norm_num
  · rw [qDiv_eq, qMul_eq]
    positivity

theorem noCommon_not_eqAt {a b : Str} (hnc : ∀ c ∈ a, c ∉ b) (i j : ℕ) :
    ¬ (a[i]? = b[j]? ∧ (a[i]?).isSome) := by
  rintro ⟨heq, hsome⟩
  obtain ⟨c, hc⟩ := Option.isSome_iff_exists.mp hsome
  have hca : c ∈ a := List.getElem?_mem hc
  have hcb : c ∈ b := List.getElem?_mem (heq ▸ hc)
  exact hnc c hca hcb

theorem suffLen_eq_zero {a b : Str} (hnc : ∀ c ∈ a, c ∉ b) (alo blo : ℕ) :
    ∀ i j, suffLen a b alo blo i j = 0 := by
  intro i j
  have hne := noCommon_not_eqAt hnc
  cases i with
  | zero =>
    simp only [suffLen]
    rw [if_neg]
    intro hcond
    exact hne 0 j ⟨hcond.2.2.1, hcond.2.2.2⟩
  | succ n =>
    cases j with
    | zero =>
      simp only [suffLen]
      rw [if_neg]
      intro hcond
      exact hne (n + 1) 0 ⟨hcond.2.2.1, hcond.2.2.2⟩
    | succ m =>
      simp only [suffLen]
      rw [if_neg]
      intro hcond
      exact hne (n + 1) (m + 1) ⟨hcond.2.2.1, hcond.2.2.2⟩

theorem flm_eq_zero {a b : Str} (hnc : ∀ c ∈ a, c ∉ b) (alo ahi blo bhi : ℕ) :
    find_longest_match a b alo ahi blo bhi = (alo, blo, 0) := by
  unfold find_longest_match
  generalize candPairs alo ahi blo bhi = ps
  induction ps with
  | nil => rfl
  | cons p ps ih =>
    simp only [List.foldl_cons]
    unfold flmStep
    rw [suffLen_eq_zero hnc]
    simp only [Nat.not_lt_zero, if_false]
    exact ih

theorem matchTotal_eq_zero {a b : Str} (hnc : ∀ c ∈ a, c ∉ b) (alo ahi blo bhi : ℕ) :
    matchTotal a b alo ahi blo bhi = 0 := by
  unfold matchTotal
  cases hf : ahi - alo with
  | zero => rfl
  | succ n =>
    simp only [matchTotalF]
    rw [flm_eq_zero hnc]
    simp

theorem simScore_eq_zero {a b : Str} (ha : a ≠ []) (hnc : ∀ c ∈ a, c ∉ b) :
    simScore a b = 0 := by
  unfold simScore
  rw [if_neg (by
    intro hlen
    exact ha (List.eq_nil_of_length_eq_zero (by omega)))]
  rw [matchTotal_eq_zero hnc]
  rw [qDiv_eq, qMul_eq]
  simp

theorem bestInWindow_all_zero {lyricsLines : List Str} {segNorm : Str} {lyricIdx : ℕ}
    (hidx : lyricIdx < lyricsLines.length)
    (hz : ∀ j, simScore segNorm (_normalize (lyricsLines.getD j [])) = 0) :
    bestInWindow lyricsLines segNorm lyricIdx = (lyricIdx, 0) := by
  unfold bestInWindow
  obtain ⟨n, hn⟩ : ∃ n, min lyricsLines.length (lyricIdx + 6) - lyricIdx = n + 1 := by
    refine ⟨min lyricsLines.length (lyricIdx + 6) - lyricIdx - 1, ?_⟩
    omega
  rw [hn, List.range'_succ]
  simp only [List.foldl_cons, hz lyricIdx]
  rw [if_pos (by norm_num)]
  have : ∀ (js : List ℕ), (js.foldl
      (fun best idx =>
        if best.2 < simScore segNorm (_normalize (lyricsLines.getD idx [])) then
          (idx, simScore segNorm (_normalize (lyricsLines.getD idx [])))
        else best)
      (lyricIdx, 0)) = (lyricIdx, 0) := by
    intro js
    induction js with
    | nil => rfl
    | cons j js ih =>
      simp only [List.foldl_cons, hz j]
      rw [if_neg (by norm_num)]
      exact ih
  exact this _

/-- C4.  Alignment fallback.  First conjunct: whenever the best similarity
score over the window `[lyricIdx, min(lyricIdx+6, len(lines)))` is below the
threshold, the aligner assigns the line currently at `lyricIdx` (not the
best-scoring one) and advances the cursor by exactly 1.  Second conjunct:
segments whose normalized text shares no character with any reference
line's normalized text (zero overlap, hence every window score is 0, which
is below any positive threshold) receive the reference lines in strict
input order starting at the first unconsumed line. -/
theorem sync_fallback :
    (∀ (lyricsLines : List Str) (minSimilarity : ℚ) (seg : CaptionSegment)
        (rest : List CaptionSegment) (lyricIdx : ℕ),
        lyricIdx < lyricsLines.length →
        _normalize seg.text ≠ [] →
        (bestInWindow lyricsLines (_normalize seg.text) lyricIdx).2 < minSimilarity →
        syncAux lyricsLines minSimilarity (seg :: rest) lyricIdx =
          { start := seg.start, «end» := seg.«end»,
            text := lyricsLines.getD lyricIdx [] } ::
            syncAux lyricsLines minSimilarity rest (lyricIdx + 1)) ∧
    (∀ (lyricsLines : List Str) (minSimilarity : ℚ) (segs : List CaptionSegment) (lyricIdx : ℕ),
        0 < minSimilarity →
        (∀ s ∈ segs, _normalize s.text ≠ [] ∧
          ∀ ln ∈ lyricsLines, ∀ c ∈ _normalize s.text, c ∉ _normalize ln) →
        syncAux lyricsLines minSimilarity segs lyricIdx =
          (segs.zip (lyricsLines.drop lyricIdx)).map fun p =>
            { start := p.1.start, «end» := p.1.«end», text := p.2 }) := by
  constructor
  · intro lyricsLines minSimilarity seg rest lyricIdx hidx hnorm hsc
    conv_lhs => unfold syncAux
    rw [if_neg (not_le.mpr hidx), if_neg hnorm, if_pos hsc]
  · intro lyricsLines minSimilarity segs
    induction segs with
    | nil => intro lyricIdx _ _; simp [syncAux]
    | cons seg rest ih =>
      intro lyricIdx hpos hsegs
      have hseg := hsegs seg (List.mem_cons_self seg rest)
      have hrest : ∀ s ∈ rest, _normalize s.text ≠ [] ∧
          ∀ ln ∈ lyricsLines, ∀ c ∈ _normalize s.text, c ∉ _normalize ln :=
        fun s hs => hsegs s (List.mem_cons_of_mem seg hs)
      by_cases hlen : lyricsLines.length ≤ lyricIdx
      · unfold syncAux
        rw [if_pos hlen, List.drop_eq_nil_of_le hlen]
        simp
      · push_neg at hlen
        have hz : ∀ j, simScore (_normalize seg.text) (_normalize (lyricsLines.getD j [])) = 0 := by
          intro j
          by_cases hj : j < lyricsLines.length
          · refine simScore_eq_zero hseg.1 ?_
            intro c hc
            exact hseg.2 (lyricsLines.getD j []) (by
              rw [List.getD_eq_getElem lyricsLines [] hj]
              exact List.getElem_mem hj) c hc
          · rw [List.getD_eq_default lyricsLines [] (by omega)]
            refine simScore_eq_zero hseg.1 ?_
            intro c _ hc
            simp [_normalize, pyStrip, pyLstrip, pyRstrip, subPunct, collapseWs, collapseWsF]
              at hc
        have hbw := bestInWindow_all_zero hlen hz
        unfold syncAux
        rw [if_neg (not_le.mpr hlen), if_neg hseg.1, hbw]
        rw [if_pos (by simpa using hpos)]
        rw [List.drop_eq_getElem_cons hlen]
        simp only [List.zip_cons_cons, List.map_cons]
        rw [ih (lyricIdx + 1) hpos hrest]
        rw [List.getD_eq_getElem lyricsLines [] hlen]

/-- Witness for `sync_fallback`: two segments with zero overlap against two
reference lines receive the lines in order (second conjunct), and the first
step is literally the fallback step (first conjunct). -/
theorem sync_fallback_witness :
    syncAux ["xx".toList, "yy".toList] (mkRat 1 4)
        [{ start := 0, «end» := 1, text := "ab".toList },
         { start := 1, «end» := 2, text := "cd".toList }] 0 =
      [{ start := 0, «end» := 1, text := "xx".toList },
       { start := 1, «end» := 2, text := "yy".toList }] ∧
    syncAux ["xx".toList, "yy".toList] (mkRat 1 4)
        [{ start := 0, «end» := 1, text := "ab".toList },
         { start := 1, «end» := 2, text := "cd".toList }] 0 =
      { start := 0, «end» := 1, text := "xx".toList } ::
        syncAux ["xx".toList, "yy".toList] (mkRat 1 4)
          [{ start := 1, «end» := 2, text := "cd".toList }] 1 := by
  constructor
  · rw [sync_fallback.2 ["xx".toList, "yy".toList] (mkRat 1 4) _ 0 (by decide) (by decide)]
    decide
  · exact sync_fallback.1 ["xx".toList, "yy".toList] (mkRat 1 4)
      { start := 0, «end» := 1, text := "ab".toList }
      [{ start := 1, «end» := 2, text := "cd".toList }] 0 (by decide) (by decide) (by decide)

/-! ### Aligner error handling (C5) -/

theorem syncAux_all_blank (lyricsLines : List Str) (minSimilarity : ℚ) :
    ∀ (segs : List CaptionSegment) (lyricIdx : ℕ),
      (∀ s ∈ segs, _normalize s.text = []) →
      syncAux lyricsLines minSimilarity segs lyricIdx = [] := by
  intro segs
  induction segs with
  | nil => intro lyricIdx _; rfl
  | cons seg rest ih =>
    intro lyricIdx hall
    unfold syncAux
    by_cases hlen : lyricsLines.length ≤ lyricIdx
    · rw [if_pos hlen]
    · rw [if_neg hlen, if_pos (hall seg (List.mem_cons_self seg rest))]
      exact ih lyricIdx fun s hs => hall s (List.mem_cons_of_mem seg hs)

/-- C5.  Aligner error handling.  First conjunct: `parse_lyrics_lines`
raises the empty-lyrics error exactly when the reference text has zero
non-blank lines after trimming.  Second conjunct: when every segment
normalizes to empty text the alignment output is empty and
`sync_segments_to_lyrics` raises the no-alignment-produced error.  Third
conjunct: in either failure case the editor's `sync_lyrics_to_segments`
catches the error and returns the segment collection unmodified. -/
theorem lyric_sync_error_handling :
    (∀ rawLyrics : Str,
        parse_lyrics_lines rawLyrics = .error .emptyLyrics ↔
          ((splitlinesPy rawLyrics).map pyStrip).filter (fun l => l ≠ []) = []) ∧
    (∀ (segs : List CaptionSegment) (lyricsLines : List Str) (minSimilarity : ℚ),
        (∀ s ∈ segs, _normalize s.text = []) →
        sync_segments_to_lyrics segs lyricsLines minSimilarity = .error .noAlignment) ∧
    (∀ (segs : List CaptionSegment) (rawLyrics : Str) (similarity : ℚ),
        ((∃ e, parse_lyrics_lines rawLyrics = .error e) ∨
          (∃ lyricsLines, parse_lyrics_lines rawLyrics = .ok lyricsLines ∧
            ∃ e, sync_segments_to_lyrics segs lyricsLines similarity = .error e)) →
        sync_lyrics_to_segments segs rawLyrics similarity = segs) := by
  refine ⟨?_, ?_, ?_⟩
  · intro rawLyrics
    unfold parse_lyrics_lines
    by_cases h : ((splitlinesPy rawLyrics).map pyStrip).filter (fun l => l ≠ []) = []
    · rw [if_pos h]
      exact ⟨fun _ => h, fun _ => rfl⟩
    · rw [if_neg h]
      exact ⟨fun hcon => Except.noConfusion hcon, fun hcon => absurd hcon h⟩
  · intro segs lyricsLines minSimilarity hall
    unfold sync_segments_to_lyrics
    rw [syncAux_all_blank lyricsLines minSimilarity segs 0 hall]
    rfl
  · intro segs rawLyrics similarity herr
    unfold sync_lyrics_to_segments
    by_cases hnil : segs = []
    · rw [if_pos hnil]
    · rw [if_neg hnil]
      rcases herr with ⟨e, hperr⟩ | ⟨lyricsLines, hok, e, hserr⟩
      · rw [hperr]
      · simp only [hok, hserr]

/-- Witness for `lyric_sync_error_handling`: blank reference text raises
the empty-lyrics error, an all-punctuation segment collection raises the
no-alignment-produced error, and the editor leaves the collection
unmodified on failure. -/
theorem lyric_sync_error_handling_witness :
    parse_lyrics_lines "  \n \n".toList = .error .emptyLyrics ∧
    sync_segments_to_lyrics [{ start := 0, «end» := 1, text := "!!!".toList }]
        ["la".toList] (mkRat 1 4) = .error .noAlignment ∧
    sync_lyrics_to_segments [{ start := 0, «end» := 1, text := "!!!".toList }]
        "".toList (mkRat 1 4) = [{ start := 0, «end» := 1, text := "!!!".toList }] := by
  refine ⟨?_, ?_, ?_⟩
  · exact (lyric_sync_error_handling.1 _).mpr (by decide)
  · exact lyric_sync_error_handling.2.1 _ _ _ (by decide)
  · exact lyric_sync_error_handling.2.2 _ _ _ (Or.inl ⟨.emptyLyrics, by decide⟩)

/-! ### Minimum duration clamp (C8) -/

theorem ratFloor_eq_floor (q : ℚ) : ratFloor q = ⌊q⌋ := by
  unfold ratFloor
  rw [Rat.floor_def]

theorem mkRat_half : (mkRat 1 2 : ℚ) = 1 / 2 := by
  rw [Rat.mkRat_eq_div]
  norm_num

/-- Python's `round` commutes with adding an even integer (the half-to-even
tie-break keeps the same parity). -/
theorem pyRound_add_int (q : ℚ) (n : ℤ) (hn : n % 2 = 0) :
    pyRound (q + (n : ℚ)) = pyRound q + n := by
  simp only [pyRound, qSub_eq, ratFloor_eq_floor, Int.floor_add_int]
  have hr : q + (n : ℚ) - ((⌊q⌋ + n : ℤ) : ℚ) = q - (⌊q⌋ : ℚ) := by
    push_cast
    ring
  rw [hr]
  split_ifs <;> omega

theorem pyRound_intCast (n : ℤ) : pyRound ((n : ℤ) : ℚ) = n := by
  simp only [pyRound, qSub_eq, ratFloor_eq_floor, Int.floor_intCast, sub_self, mkRat_half]
  rw [if_pos (by norm_num)]

/-- Rounding to 3 decimals commutes with adding exactly 0.2 s
(= 200 ms, an even count of milliseconds). -/
theorem pyRound3_add_fifth (t : ℚ) : pyRound3 (qAdd t (mkRat 1 5)) = pyRound3 t + mkRat 1 5 := by
  simp only [pyRound3, qAdd_eq, qDiv_eq, qMul_eq]
  have h1 : (t + mkRat 1 5) * 1000 = t * 1000 + ((200 : ℤ) : ℚ) := by
    rw [Rat.mkRat_eq_div]
    push_cast
    ring
  rw [h1, pyRound_add_int _ 200 (by decide)]
  rw [Rat.mkRat_eq_div]
  push_cast
  ring

/-- C8.  Minimum duration clamp: a resize-left or resize-right drag whose
delta would push the block width below `MIN_WIDTH` pixels produces a
segment whose duration (end minus start, both rounded to 3 decimal places)
is exactly the minimum duration `MIN_WIDTH / PIXELS_PER_SECOND`
(= 24 px / 120 px/s = 0.2 s). -/
theorem min_duration_clamp (s : CaptionSegment) (delta : ℚ) :
    (qSub (blockOrigW PIXELS_PER_SECOND s) delta < MIN_WIDTH →
      (dragSegment PIXELS_PER_SECOND .left delta s).«end» -
          (dragSegment PIXELS_PER_SECOND .left delta s).start =
        MIN_WIDTH / PIXELS_PER_SECOND) ∧
    (qAdd (blockOrigW PIXELS_PER_SECOND s) delta < MIN_WIDTH →
      (dragSegment PIXELS_PER_SECOND .right delta s).«end» -
          (dragSegment PIXELS_PER_SECOND .right delta s).start =
        MIN_WIDTH / PIXELS_PER_SECOND) := by
  have hM : pyMax (mkRat 1 10) (qDiv MIN_WIDTH PIXELS_PER_SECOND) = mkRat 1 5 := by decide
  have hMP : MIN_WIDTH / PIXELS_PER_SECOND = mkRat 1 5 := by
    rw [Rat.mkRat_eq_div]
    unfold MIN_WIDTH PIXELS_PER_SECOND
    norm_num
  constructor
  · intro hcond
    simp only [dragSegment, dragGeometry]
    rw [if_pos hcond]
    simp only [_update_segment_from_geometry, hM, pyRound3_add_fifth, hMP]
    ring
  · intro hcond
    simp only [dragSegment, dragGeometry]
    have hW : pyMax MIN_WIDTH (qAdd (blockOrigW PIXELS_PER_SECOND s) delta) = MIN_WIDTH := by
      unfold pyMax
      rw [if_neg (not_lt.mpr (le_of_lt hcond))]
    simp only [hW, _update_segment_from_geometry, hM, pyRound3_add_fifth, hMP]
    ring

/-- Witness for `min_duration_clamp`: shrinking a 1-second block from
either edge by more than its width clamps the duration to exactly 0.2 s. -/
theorem min_duration_clamp_witness :
    (qSub (blockOrigW PIXELS_PER_SECOND { start := 0, «end» := 1, text := ['x'] }) 200 <
        MIN_WIDTH ∧
      (dragSegment PIXELS_PER_SECOND .left 200 { start := 0, «end» := 1, text := ['x'] }).«end» -
          (dragSegment PIXELS_PER_SECOND .left 200
            { start := 0, «end» := 1, text := ['x'] }).start =
        MIN_WIDTH / PIXELS_PER_SECOND) ∧
    (qAdd (blockOrigW PIXELS_PER_SECOND { start := 0, «end» := 1, text := ['x'] }) (-200) <
        MIN_WIDTH ∧
      (dragSegment PIXELS_PER_SECOND .right (-200)
            { start := 0, «end» := 1, text := ['x'] }).«end» -
          (dragSegment PIXELS_PER_SECOND .right (-200)
            { start := 0, «end» := 1, text := ['x'] }).start =
        MIN_WIDTH / PIXELS_PER_SECOND) := by
  constructor
  · exact ⟨by decide, (min_duration_clamp { start := 0, «end» := 1, text := ['x'] } 200).1
      (by decide)⟩
  · exact ⟨by decide, (min_duration_clamp { start := 0, «end» := 1, text := ['x'] } (-200)).2
      (by decide)⟩

/-! ### Export progress parsing (C9) -/

theorem foldl_overwrite_eq_getLast :
    ∀ (lines : List Str) (acc : ℤ),
      lines.foldl
          (fun acc line =>
            if outTimeTok <+: line then
              match pyInt (afterFirstEq line) with
              | some v => v
              | none => acc
            else acc) acc =
        ((lines.filterMap (fun line =>
            if outTimeTok <+: line then pyInt (afterFirstEq line) else none)).getLast?).getD
          acc := by
  intro lines
  induction lines with
  | nil => intro acc; rfl
  | cons l rest ih =>
    intro acc
    simp only [List.foldl_cons, List.filterMap_cons]
    by_cases htok : outTimeTok <+: l
    · simp only [if_pos htok]
      cases hf : pyInt (afterFirstEq l) with
      | none => exact ih acc
      | some v =>
        simp only
        rw [ih v]
        cases hrest : (rest.filterMap (fun line =>
            if outTimeTok <+: line then pyInt (afterFirstEq line) else none)) with
        | nil => rfl
        | cons x xs =>
          rw [List.getLast?_cons_cons, List.getLast?_eq_getLast (x :: xs) (by simp)]
          rfl
    · simp only [if_neg htok]
      exact ih acc

theorem le_foldl_pyMax (l : List CaptionSegment) :
    ∀ init : ℚ, init ≤ l.foldl (fun m t => pyMax m t.«end») init := by
  induction l with
  | nil => intro init; exact le_refl init
  | cons s rest ih =>
    intro init
    simp only [List.foldl_cons]
    refine le_trans ?_ (ih (pyMax init s.«end»))
    unfold pyMax
    split
    · exact le_of_lt (by assumption)
    · exact le_refl init

theorem maxEnd_pos {segs : List CaptionSegment} (hne : segs ≠ [])
    (hinv : ∀ s ∈ segs, 0 ≤ s.start ∧ s.start < s.«end») : 0 < maxEnd segs := by
  cases segs with
  | nil => exact absurd rfl hne
  | cons s rest =>
    have hs := hinv s (List.mem_cons_self s rest)
    have h1 : s.«end» ≤ maxEnd (s :: rest) := le_foldl_pyMax rest s.«end»
    calc (0 : ℚ) ≤ s.start := hs.1
    _ < s.«end» := hs.2
    _ ≤ maxEnd (s :: rest) := h1

/-- C9.  Export progress parsing.  First conjunct: a missing (or
unreadable) progress file yields 0%.  Second conjunct: for every file
content and every segment collection satisfying the data-model invariant
`0 ≤ start < end`, the result is the percentage of the last well-formed
`out_time_ms=` integer (malformed values are skipped, earlier valid values
are overwritten, absence of any valid value counts as 0), converted from
microseconds to seconds, divided by the maximum segment end time — or by
the media-player fallback duration when no segments exist — and clamped to
`[0, 100]`. -/
theorem ffmpeg_progress_spec :
    (∀ (segs : List CaptionSegment) (mediaDurationMs : ℚ),
        _parse_ffmpeg_progress none segs mediaDurationMs = 0) ∧
    (∀ (text : Str) (segs : List CaptionSegment) (mediaDurationMs : ℚ),
        (∀ s ∈ segs, 0 ≤ s.start ∧ s.start < s.«end») →
        _parse_ffmpeg_progress (some text) segs mediaDurationMs =
          pyMax 0 (pyMin 100 (qMul (qDiv (qDiv
            ((((splitlinesPy text).filterMap (fun line =>
                if outTimeTok <+: line then pyInt (afterFirstEq line) else none)).getLast?).getD 0
              : ℚ) 1000000)
            (if segs = [] then pyMax (mkRat 1 10) (qDiv mediaDurationMs 1000) else maxEnd segs))
            100))) := by
  constructor
  · intro segs mediaDurationMs
    rfl
  · intro text segs mediaDurationMs hinv
    simp only [_parse_ffmpeg_progress]
    rw [foldl_overwrite_eq_getLast (splitlinesPy text) 0]
    by_cases hsegs : segs = []
    · subst hsegs
      simp [maxEnd]
    · rw [if_neg (not_le.mpr (maxEnd_pos hsegs hinv)), if_neg hsegs]

/-- Witness for `ffmpeg_progress_spec`: a log whose malformed value is
skipped and whose last valid value wins evaluates to 50% of a 10-second
timeline. -/
theorem ffmpeg_progress_spec_witness :
    _parse_ffmpeg_progress
        (some "out_time_ms=2500000\nout_time_ms=abc\nout_time_ms=5000000\n".toList)
        [{ start := 0, «end» := 10, text := ['x'] }] 0 =
      pyMax 0 (pyMin 100 (qMul (qDiv (qDiv ((5000000 : ℤ) : ℚ) 1000000)
        (maxEnd [{ start := 0, «end» := 10, text := ['x'] }])) 100)) := by
  rw [ffmpeg_progress_spec.2
    "out_time_ms=2500000\nout_time_ms=abc\nout_time_ms=5000000\n".toList
    [{ start := 0, «end» := 10, text := ['x'] }] 0 (by decide)]
  decide

/-! ### Text normalizer contract (C6) -/

theorem length_dropWhile_ws_le (l : Str) : (l.dropWhile isSpacePy).length ≤ l.length := by
  induction l with
  | nil => simp
  | cons d ds ih =>
    simp only [List.dropWhile]
    split
    · simp only [List.length_cons]
      omega
    · simp

theorem collapseWsF_fuel_irrel :
    ∀ (fuel1 fuel2 : ℕ) (s : Str), s.length ≤ fuel1 → s.length ≤ fuel2 →
      collapseWsF fuel1 s = collapseWsF fuel2 s := by
  intro fuel1
  induction fuel1 with
  | zero =>
    intro fuel2 s hs1 _
    rw [List.length_eq_zero.mp (Nat.le_zero.mp hs1)]
    cases fuel2 <;> rfl
  | succ n ih =>
    intro fuel2 s hs1 hs2
    cases s with
    | nil => cases fuel2 <;> rfl
    | cons c rest =>
      obtain ⟨m, rfl⟩ : ∃ m, fuel2 = m + 1 := by
        cases fuel2
        · simp at hs2
        · exact ⟨_, rfl⟩
      simp only [collapseWsF]
      simp only [List.length_cons] at hs1 hs2
      split
      · rw [ih m (rest.dropWhile isSpacePy)
          (le_trans (length_dropWhile_ws_le rest) (by omega))
          (le_trans (length_dropWhile_ws_le rest) (by omega))]
      · rw [ih m rest (by omega) (by omega)]

theorem collapseWs_cons_ws {c : Char} (rest : Str) (hc : isSpacePy c = true) :
    collapseWs (c :: rest) = ' ' :: collapseWs (rest.dropWhile isSpacePy) := by
  unfold collapseWs
  simp only [List.length_cons, collapseWsF, hc, if_true]
  congr 1
  exact collapseWsF_fuel_irrel rest.length (rest.dropWhile isSpacePy).length
    (rest.dropWhile isSpacePy) (length_dropWhile_ws_le rest) (le_refl _)

theorem collapseWs_cons_not_ws {c : Char} (rest : Str) (hc : isSpacePy c = false) :
    collapseWs (c :: rest) = c :: collapseWs rest := by
  unfold collapseWs
  simp only [List.length_cons, collapseWsF, hc]
  simp

theorem dropWhile_ws_all {w : Str} (hw : ∀ c ∈ w, isSpacePy c = true) :
    w.dropWhile isSpacePy = [] := by
  induction w with
  | nil => rfl
  | cons c cs ih =>
    simp only [List.dropWhile, hw c (List.mem_cons_self c cs)]
    exact ih fun d hd => hw d (List.mem_cons_of_mem c hd)

theorem dropWhile_ws_append {w : Str} (hw : ∀ c ∈ w, isSpacePy c = true) (v : Str) :
    (w ++ v).dropWhile isSpacePy = v.dropWhile isSpacePy := by
  induction w with
  | nil => rfl
  | cons c cs ih =>
    simp only [List.cons_append, List.dropWhile, hw c (List.mem_cons_self c cs)]
    exact ih fun d hd => hw d (List.mem_cons_of_mem c hd)

theorem dropWhile_append_of_ne_nil {v w : Str}
    (hv : v.dropWhile isSpacePy ≠ []) :
    (v ++ w).dropWhile isSpacePy = v.dropWhile isSpacePy ++ w := by
  induction v with
  | nil => exact absurd rfl hv
  | cons c cs ih =>
    simp only [List.cons_append, List.dropWhile]
    cases hc : isSpacePy c with
    | true =>
      simp only [List.dropWhile, hc] at hv
      exact ih hv
    | false => simp

theorem pyStrip_cons_space (z : Str) : pyStrip (' ' :: z) = pyStrip z := by
  unfold pyStrip pyLstrip
  rw [List.dropWhile_cons_of_pos (by decide)]

theorem subPunct_ws_id {w : Str} (hw : ∀ c ∈ w, isSpacePy c = true) : subPunct w = w := by
  induction w with
  | nil => rfl
  | cons c cs ih =>
    unfold subPunct
    simp only [List.map_cons]
    rw [if_pos (by simp [hw c (List.mem_cons_self c cs)])]
    exact congrArg (c :: ·) (ih fun d hd => hw d (List.mem_cons_of_mem c hd))

theorem strip_collapse_ws_prefix {w : Str} (hw : ∀ c ∈ w, isSpacePy c = true) (v : Str) :
    pyStrip (collapseWs (w ++ v)) = pyStrip (collapseWs v) := by
  cases w with
  | nil => rfl
  | cons c cs =>
    have hc : isSpacePy c = true := hw c (List.mem_cons_self c cs)
    have hcs : ∀ d ∈ cs, isSpacePy d = true := fun d hd => hw d (List.mem_cons_of_mem c hd)
    rw [List.cons_append, collapseWs_cons_ws _ hc, pyStrip_cons_space,
      dropWhile_ws_append hcs v]
    cases v with
    | nil => rfl
    | cons d ds =>
      cases hd : isSpacePy d with
      | true =>
        rw [List.dropWhile_cons_of_pos (by simp [hd]), collapseWs_cons_ws ds hd,
          pyStrip_cons_space]
      | false =>
        rw [List.dropWhile_cons_of_neg (by simp [hd])]

theorem pyRstrip_cons (c : Char) (z : Str) :
    pyRstrip (c :: z) =
      if pyRstrip z = [] then (if isSpacePy c then [] else [c]) else c :: pyRstrip z := by
  unfold pyRstrip
  simp only [List.reverse_cons]
  by_cases hz : z.reverse.dropWhile isSpacePy = []
  · rw [if_pos (by simp [hz])]
    rw [dropWhile_ws_append (List.dropWhile_eq_nil_iff.mp hz)]
    cases hc : isSpacePy c with
    | true => simp [List.dropWhile, hc]
    | false => simp [List.dropWhile, hc]
  · rw [if_neg (by simpa using hz)]
    rw [dropWhile_append_of_ne_nil hz]
    simp

theorem subPunct_append (a b : Str) : subPunct (a ++ b) = subPunct a ++ subPunct b := by
  unfold subPunct
  rw [List.map_append]

theorem rstrip_collapse_all_ws {w : Str} (hw : ∀ c ∈ w, isSpacePy c = true) :
    pyRstrip (collapseWs w) = [] := by
  cases w with
  | nil => rfl
  | cons c cs =>
    rw [collapseWs_cons_ws cs (hw c (List.mem_cons_self c cs)),
      dropWhile_ws_all fun d hd => hw d (List.mem_cons_of_mem c hd)]
    decide

theorem rstrip_collapse_ws_suffix {w : Str} (hw : ∀ c ∈ w, isSpacePy c = true) :
    ∀ (n : ℕ) (v : Str), v.length ≤ n →
      pyRstrip (collapseWs (v ++ w)) = pyRstrip (collapseWs v) := by
  intro n
  induction n with
  | zero =>
    intro v hv
    rw [List.length_eq_zero.mp (Nat.le_zero.mp hv), List.nil_append]
    exact rstrip_collapse_all_ws hw
  | succ n ih =>
    intro v hv
    cases v with
    | nil =>
      rw [List.nil_append]
      exact rstrip_collapse_all_ws hw
    | cons c v2 =>
      simp only [List.length_cons] at hv
      cases hc : isSpacePy c with
      | true =>
        rw [List.cons_append, collapseWs_cons_ws _ hc, collapseWs_cons_ws _ hc]
        by_cases hd : v2.dropWhile isSpacePy = []
        · have h1 : (v2 ++ w).dropWhile isSpacePy = [] := by
            rw [dropWhile_ws_append (List.dropWhile_eq_nil_iff.mp hd) w]
            exact dropWhile_ws_all hw
          rw [h1, hd]
        · rw [dropWhile_append_of_ne_nil hd, pyRstrip_cons, pyRstrip_cons,
            ih (v2.dropWhile isSpacePy) (le_trans (length_dropWhile_ws_le v2) (by omega))]
      | false =>
        rw [List.cons_append, collapseWs_cons_not_ws _ hc, collapseWs_cons_not_ws _ hc,
          pyRstrip_cons, pyRstrip_cons, ih v2 (by omega)]

theorem pyStrip_cons_not_ws {c : Char} (hc : isSpacePy c = false) (z : Str) :
    pyStrip (c :: z) = pyRstrip (c :: z) := by
  unfold pyStrip pyLstrip
  rw [List.dropWhile_cons_of_neg (by simp [hc])]

theorem strip_collapse_ws_suffix {w : Str} (hw : ∀ c ∈ w, isSpacePy c = true) :
    ∀ (n : ℕ) (v : Str), v.length ≤ n →
      pyStrip (collapseWs (v ++ w)) = pyStrip (collapseWs v) := by
  intro n
  induction n with
  | zero =>
    intro v hv
    rw [List.length_eq_zero.mp (Nat.le_zero.mp hv), List.nil_append]
    cases w with
    | nil => rfl
    | cons c cs =>
      rw [collapseWs_cons_ws cs (hw c (List.mem_cons_self c cs)),
        dropWhile_ws_all fun d hd => hw d (List.mem_cons_of_mem c hd)]
      decide
  | succ n ih =>
    intro v hv
    cases v with
    | nil =>
      rw [List.nil_append]
      cases w with
      | nil => rfl
      | cons c cs =>
        rw [collapseWs_cons_ws cs (hw c (List.mem_cons_self c cs)),
          dropWhile_ws_all fun d hd => hw d (List.mem_cons_of_mem c hd)]
        decide
    | cons c v2 =>
      simp only [List.length_cons] at hv
      cases hc : isSpacePy c with
      | true =>
        rw [List.cons_append, collapseWs_cons_ws _ hc, collapseWs_cons_ws _ hc,
          pyStrip_cons_space, pyStrip_cons_space]
        by_cases hd : v2.dropWhile isSpacePy = []
        · have h1 : (v2 ++ w).dropWhile isSpacePy = [] := by
            rw [dropWhile_ws_append (List.dropWhile_eq_nil_iff.mp hd) w]
            exact dropWhile_ws_all hw
          rw [h1, hd]
        · rw [dropWhile_append_of_ne_nil hd]
          exact ih (v2.dropWhile isSpacePy) (le_trans (length_dropWhile_ws_le v2) (by omega))
      | false =>
        rw [List.cons_append, collapseWs_cons_not_ws _ hc, collapseWs_cons_not_ws _ hc,
          pyStrip_cons_not_ws hc, pyStrip_cons_not_ws hc, pyRstrip_cons, pyRstrip_cons,
          rstrip_collapse_ws_suffix hw v2.length v2 (le_refl _)]

/-- C6, counterexample.  The contract fails as stated: `'_'` is neither a
letter, a digit, nor whitespace, so the claimed normalization of `"a_b"`
would be `"a b"`; but the code's character class is the regex `\w` (word
characters, which include the underscore), so `_normalize` keeps the
underscore unchanged. -/
theorem normalize_underscore_cex :
    _normalize "a_b".toList = "a_b".toList ∧ _normalize "a_b".toList ≠ "a b".toList := by
  constructor
  · decide
  · decide

/-- C6, amended.  The Text Normalizer contract with the word class
corrected to include the underscore: for every string, `_normalize`
lowercases it, replaces every character that is not a letter, digit,
underscore, or whitespace with a single space, collapses consecutive
whitespace to one space, and trims — i.e. it equals the spec-side pipeline
`specNormalize` (the code's extra inner strip before the substitutions is
absorbed by the final trim). -/
theorem normalize_eq_specNormalize (s : Str) : _normalize s = specNormalize s := by
  unfold _normalize specNormalize
  generalize s.map Char.toLower = u
  have hpre : ∀ c ∈ u.takeWhile isSpacePy, isSpacePy c = true :=
    fun c hc => List.mem_takeWhile_imp hc
  have hsuf : ∀ c ∈ ((u.dropWhile isSpacePy).reverse.takeWhile isSpacePy).reverse,
      isSpacePy c = true :=
    fun c hc => List.mem_takeWhile_imp (List.mem_reverse.mp hc)
  have hdecomp : u = u.takeWhile isSpacePy ++
      (pyRstrip (u.dropWhile isSpacePy) ++
        ((u.dropWhile isSpacePy).reverse.takeWhile isSpacePy).reverse) := by
    conv_lhs => rw [← List.takeWhile_append_dropWhile (p := isSpacePy) (l := u)]
    congr 1
    conv_lhs => rw [← List.reverse_reverse (u.dropWhile isSpacePy),
      ← List.takeWhile_append_dropWhile (p := isSpacePy) (l := (u.dropWhile isSpacePy).reverse)]
    rw [List.reverse_append]
    rfl
  conv_rhs => rw [hdecomp]
  rw [subPunct_append, subPunct_append, subPunct_ws_id hpre, subPunct_ws_id hsuf,
    strip_collapse_ws_prefix hpre, strip_collapse_ws_suffix hsuf
      (subPunct (pyRstrip (u.dropWhile isSpacePy))).length _ (le_refl _)]
  rfl

/-! ### SRT round trip (C1) -/

theorem digitChar_spec (d : ℕ) : (digitChar d).isDigit = true ∧
    isSpacePy (digitChar d) = false ∧ isEolPy (digitChar d) = false ∧ digitChar d ≠ '-' := by
  by_cases h : d < 9
  · have hall : ∀ x ∈ List.range 9, (digitChar x).isDigit = true ∧
        isSpacePy (digitChar x) = false ∧ isEolPy (digitChar x) = false ∧ digitChar x ≠ '-' := by
      decide
    exact hall d (List.mem_range.mpr h)
  · obtain ⟨n, rfl⟩ : ∃ n, d = n + 9 := ⟨d - 9, by omega⟩
    rw [show digitChar (n + 9) = '9' from rfl]
    exact ⟨by decide, by decide, by decide, by decide⟩

theorem digitVal_digitChar (d : ℕ) (h : d < 10) : digitVal (digitChar d) = d := by
  have hall : ∀ x ∈ List.range 10, digitVal (digitChar x) = x := by decide
  exact hall d (List.mem_range.mpr h)

theorem natDigitsAux_small : ∀ (fuel n : ℕ), 0 < n → n < 10 → 0 < fuel →
    natDigitsAux fuel n = [digitChar n]
  | 0, _, _, _, hf => absurd hf (Nat.lt_irrefl 0)
  | _ + 1, 0, h0, _, _ => absurd h0 (Nat.lt_irrefl 0)
  | _ + 1, n + 1, _, h10, _ => by
    simp only [natDigitsAux]
    rw [if_pos h10]

theorem natDigitsAux_two : ∀ (fuel n : ℕ), 10 ≤ n → n < 100 → 2 ≤ fuel →
    natDigitsAux fuel n = [digitChar (n / 10), digitChar (n % 10)]
  | 0, _, _, _, hf => absurd hf (by omega)
  | fuel + 1, n, h10, _, hf => by
    obtain ⟨m, rfl⟩ : ∃ m, n = m + 1 := ⟨n - 1, by omega⟩
    simp only [natDigitsAux]
    rw [if_neg (by omega), natDigitsAux_small fuel ((m + 1) / 10) (by omega) (by omega) (by omega)]
    rfl

theorem natDigitsAux_three : ∀ (fuel n : ℕ), 100 ≤ n → n < 1000 → 3 ≤ fuel →
    natDigitsAux fuel n = [digitChar (n / 100), digitChar (n / 10 % 10), digitChar (n % 10)]
  | 0, _, _, _, hf => absurd hf (by omega)
  | fuel + 1, n, h100, h1000, hf => by
    obtain ⟨m, rfl⟩ : ∃ m, n = m + 1 := ⟨n - 1, by omega⟩
    simp only [natDigitsAux]
    rw [if_neg (by omega), natDigitsAux_two fuel ((m + 1) / 10) (by omega) (by omega) (by omega)]
    rw [Nat.div_div_eq_div_mul]
    rfl

theorem natToDigits_one (n : ℕ) (h : n < 10) : natToDigits n = [digitChar n] := by
  match n, h with
  | 0, _ => rfl
  | m + 1, h => exact natDigitsAux_small (m + 1) (m + 1) (by omega) h (by omega)

theorem natToDigits_two (n : ℕ) (h1 : 10 ≤ n) (h2 : n < 100) :
    natToDigits n = [digitChar (n / 10), digitChar (n % 10)] :=
  natDigitsAux_two n n h1 h2 (by omega)

theorem natToDigits_three (n : ℕ) (h1 : 100 ≤ n) (h2 : n < 1000) :
    natToDigits n = [digitChar (n / 100), digitChar (n / 10 % 10), digitChar (n % 10)] :=
  natDigitsAux_three n n h1 h2 (by omega)

theorem natDigitsAux_shape : ∀ fuel n : ℕ, n ≤ fuel →
    natDigitsAux fuel n ≠ [] ∧ ∀ c ∈ natDigitsAux fuel n, ∃ d, c = digitChar d := by
  intro fuel
  induction fuel with
  | zero =>
    intro n hn
    obtain rfl : n = 0 := by omega
    refine ⟨by simp [natDigitsAux], ?_⟩
    intro c hc
    simp only [natDigitsAux, List.mem_singleton] at hc
    exact ⟨0, hc⟩
  | succ fuel ih =>
    intro n hn
    match n with
    | 0 =>
      refine ⟨by simp [natDigitsAux], ?_⟩
      intro c hc
      simp only [natDigitsAux, List.mem_singleton] at hc
      exact ⟨0, hc⟩
    | m + 1 =>
      simp only [natDigitsAux]
      by_cases h : m + 1 < 10
      · rw [if_pos h]
        exact ⟨by simp, fun c hc => ⟨m + 1, by simpa using hc⟩⟩
      · rw [if_neg h]
        obtain ⟨hne, hmem⟩ := ih ((m + 1) / 10) (by omega)
        refine ⟨fun hx => hne (List.append_eq_nil.mp hx).1, ?_⟩
        intro c hc
        rcases List.mem_append.mp hc with h1 | h1
        · exact hmem c h1
        · exact ⟨(m + 1) % 10, by simpa using h1⟩

theorem natToDigits_shape (n : ℕ) :
    natToDigits n ≠ [] ∧ ∀ c ∈ natToDigits n, ∃ d, c = digitChar d :=
  natDigitsAux_shape n n (le_refl n)

theorem headNonWs_digits_append (i : ℕ) (t : Str) :
    headNonWs (natToDigits i ++ t) = true := by
  obtain ⟨hne, hmem⟩ := natToDigits_shape i
  cases h : natToDigits i with
  | nil => exact absurd h hne
  | cons c ds =>
    have hc : c ∈ natToDigits i := by rw [h]; exact List.mem_cons_self c ds
    obtain ⟨d, rfl⟩ := hmem c hc
    simp only [List.cons_append, headNonWs, (digitChar_spec d).2.1]
    rfl

theorem pyLstrip_eq_self {B : Str} (h : headNonWs B = true) : pyLstrip B = B := by
  cases B with
  | nil => rfl
  | cons c rest =>
    simp only [headNonWs, Bool.not_eq_true'] at h
    simp [pyLstrip, List.dropWhile_cons, h]

theorem pyRstrip_eq_self {B : Str} (h : headNonWs B.reverse = true) : pyRstrip B = B := by
  unfold pyRstrip
  have := pyLstrip_eq_self h
  unfold pyLstrip at this
  rw [this, List.reverse_reverse]

theorem pyStrip_eq_self {B : Str} (hh : headNonWs B = true) (hl : headNonWs B.reverse = true) :
    pyStrip B = B := by
  unfold pyStrip
  rw [pyLstrip_eq_self hh, pyRstrip_eq_self hl]

theorem pyRstrip_append_ws {c : Char} (hw : isSpacePy c = true) (l : Str) :
    pyRstrip (l ++ [c]) = pyRstrip l := by
  unfold pyRstrip
  rw [List.reverse_append]
  simp [List.dropWhile_cons, hw]

theorem pyLstrip_suffix (t : Str) : pyLstrip t <:+ t := List.dropWhile_suffix _

theorem lstrip_of_strip_eq {t : Str} (hs : pyStrip t = t) : pyLstrip t = t := by
  have h1 : (pyStrip t).length ≤ (pyLstrip t).length := by
    unfold pyStrip pyRstrip
    calc ((pyLstrip t).reverse.dropWhile isSpacePy).reverse.length
        = ((pyLstrip t).reverse.dropWhile isSpacePy).length := List.length_reverse _
      _ ≤ (pyLstrip t).reverse.length := length_dropWhile_ws_le _
      _ = (pyLstrip t).length := List.length_reverse _
  have h2 : (pyLstrip t).length ≤ t.length := length_dropWhile_ws_le _
  have h3 : (pyLstrip t).length = t.length := by
    have h4 := congrArg List.length hs
    omega
  exact (pyLstrip_suffix t).eq_of_length h3

theorem rstrip_of_strip_eq {t : Str} (hs : pyStrip t = t) : pyRstrip t = t := by
  have h1 := lstrip_of_strip_eq hs
  unfold pyStrip at hs
  rw [h1] at hs
  exact hs

theorem stripped_headNonWs {t : Str} (hne : t ≠ []) (hs : pyStrip t = t) :
    headNonWs t = true := by
  have h1 := lstrip_of_strip_eq hs
  cases t with
  | nil => exact absurd rfl hne
  | cons c rest =>
    simp only [headNonWs, Bool.not_eq_true']
    by_contra hc
    have hc' : isSpacePy c = true := by
      cases h : isSpacePy c
      · exact absurd h hc
      · rfl
    unfold pyLstrip at h1
    rw [List.dropWhile_cons, if_pos hc'] at h1
    have h2 := congrArg List.length h1
    have h3 := length_dropWhile_ws_le rest
    simp only [List.length_cons] at h2
    omega

theorem stripped_revHeadNonWs {t : Str} (hne : t ≠ []) (hs : pyStrip t = t) :
    headNonWs t.reverse = true := by
  have h1 := rstrip_of_strip_eq hs
  unfold pyRstrip at h1
  have h2 : t.reverse.dropWhile isSpacePy = t.reverse := by
    have := congrArg List.reverse h1
    rwa [List.reverse_reverse] at this
  cases h : t.reverse with
  | nil => exact absurd (by simpa using congrArg List.reverse h) hne
  | cons c rest =>
    simp only [headNonWs, Bool.not_eq_true']
    by_contra hc
    have hc' : isSpacePy c = true := by
      cases hx : isSpacePy c
      · exact absurd hx hc
      · rfl
    rw [h, List.dropWhile_cons, if_pos hc'] at h2
    have h3 := congrArg List.length h2
    have h4 := length_dropWhile_ws_le rest
    simp only [List.length_cons] at h3
    omega
theorem pyRound_nonneg {q : ℚ} (h : 0 ≤ q) : 0 ≤ pyRound q := by
  simp only [pyRound, qSub_eq, ratFloor_eq_floor]
  have hf : 0 ≤ ⌊q⌋ := Int.le_floor.mpr (by exact_mod_cast h)
  split_ifs <;> omega

theorem pyPad_two (k : ℕ) (h : k < 100) :
    pyPad 2 (k : ℤ) = [digitChar (k / 10), digitChar (k % 10)] := by
  unfold pyPad
  rw [if_neg (not_lt.mpr (Int.natCast_nonneg k))]
  have ht : (k : ℤ).toNat = k := Int.toNat_natCast k
  rw [ht]
  by_cases h10 : k < 10
  · rw [natToDigits_one k h10, Nat.div_eq_of_lt h10, Nat.mod_eq_of_lt h10]
    rfl
  · rw [natToDigits_two k (by omega) h]
    rfl

theorem pyPad_three (k : ℕ) (h : k < 1000) :
    pyPad 3 (k : ℤ) = [digitChar (k / 100), digitChar (k / 10 % 10), digitChar (k % 10)] := by
  unfold pyPad
  rw [if_neg (not_lt.mpr (Int.natCast_nonneg k))]
  have ht : (k : ℤ).toNat = k := Int.toNat_natCast k
  rw [ht]
  by_cases h10 : k < 10
  · rw [natToDigits_one k h10, Nat.div_eq_of_lt (by omega : k < 100),
      Nat.div_eq_of_lt h10, Nat.mod_eq_of_lt h10]
    rfl
  · by_cases h100 : k < 100
    · rw [natToDigits_two k (by omega) h100, Nat.div_eq_of_lt h100,
        Nat.mod_eq_of_lt (show k / 10 < 10 by omega)]
      rfl
    · rw [natToDigits_three k (by omega) h]
      rfl

theorem to_srt_time_digits (q : ℚ) (n : ℕ) (hn : pyRound (qMul q 1000) = (n : ℤ))
    (h1 : n < 360000000) :
    _to_srt_time q =
      [digitChar (n / 3600000 / 10), digitChar (n / 3600000 % 10), ':',
       digitChar (n % 3600000 / 60000 / 10), digitChar (n % 3600000 / 60000 % 10), ':',
       digitChar (n % 3600000 % 60000 / 1000 / 10), digitChar (n % 3600000 % 60000 / 1000 % 10), ',',
       digitChar (n % 3600000 % 60000 % 1000 / 100), digitChar (n % 3600000 % 60000 % 1000 / 10 % 10),
       digitChar (n % 3600000 % 60000 % 1000 % 10)] := by
  simp only [_to_srt_time, hn]
  have e1 : (n : ℤ) / 3600000 = ((n / 3600000 : ℕ) : ℤ) := by omega
  have e2 : (n : ℤ) % 3600000 / 60000 = ((n % 3600000 / 60000 : ℕ) : ℤ) := by omega
  have e3 : (n : ℤ) % 3600000 % 60000 / 1000 = ((n % 3600000 % 60000 / 1000 : ℕ) : ℤ) := by omega
  have e4 : (n : ℤ) % 3600000 % 60000 % 1000 = ((n % 3600000 % 60000 % 1000 : ℕ) : ℤ) := by omega
  rw [e1, e2, e3, e4, pyPad_two _ (by omega), pyPad_two _ (by omega), pyPad_two _ (by omega),
    pyPad_three _ (by omega)]
  rfl

theorem time_value_eq (n : ℕ) :
    qAdd (qAdd (qAdd (qMul ((n / 3600000 : ℕ) : ℚ) 3600)
          (qMul ((n % 3600000 / 60000 : ℕ) : ℚ) 60))
        ((n % 3600000 % 60000 / 1000 : ℕ) : ℚ))
      (qDiv ((n % 3600000 % 60000 % 1000 : ℕ) : ℚ) 1000) = qDiv ((n : ℕ) : ℚ) 1000 := by
  rw [qAdd_eq, qAdd_eq, qAdd_eq, qMul_eq, qMul_eq, qDiv_eq, qDiv_eq]
  have key : 3600000 * (n / 3600000) + 60000 * (n % 3600000 / 60000) +
      1000 * (n % 3600000 % 60000 / 1000) + n % 3600000 % 60000 % 1000 = n := by omega
  field_simp
  norm_cast
  omega

theorem wsNlMatch_length_le {rest rest2 : Str} (h : wsNlMatch rest = some rest2) :
    rest2.length ≤ rest.length := by
  unfold wsNlMatch at h
  cases hx : afterLastNl (rest.takeWhile isSpacePy) with
  | none => rw [hx] at h; exact absurd h (by simp)
  | some k =>
    rw [hx] at h
    simp only [Option.some.injEq] at h
    rw [← h, List.length_drop]
    omega

theorem reGoF_fuel_irrel : ∀ (f1 f2 : ℕ) (acc s : Str), s.length ≤ f1 → s.length ≤ f2 →
    reGoF f1 acc s = reGoF f2 acc s := by
  intro f1
  induction f1 with
  | zero =>
    intro f2 acc s hs1 _
    rw [List.length_eq_zero.mp (Nat.le_zero.mp hs1)]
    cases f2 <;> rfl
  | succ n ih =>
    intro f2 acc s hs1 hs2
    cases s with
    | nil => cases f2 <;> rfl
    | cons c rest =>
      obtain ⟨m, rfl⟩ : ∃ m, f2 = m + 1 := by
        cases f2
        · simp at hs2
        · exact ⟨_, rfl⟩
      simp only [reGoF]
      simp only [List.length_cons] at hs1 hs2
      by_cases hc : c = '\n'
      · rw [if_pos hc, if_pos hc]
        cases hm : wsNlMatch rest with
        | none => simp only [hm, ih m ('\n' :: acc) rest (by omega) (by omega)]
        | some rest2 =>
          have hlen := wsNlMatch_length_le hm
          simp only [hm, ih m [] rest2 (by omega) (by omega)]
      · rw [if_neg hc, if_neg hc, ih m (c :: acc) rest (by omega) (by omega)]

theorem reGo_cons_of_ne {c : Char} (hc : c ≠ '\n') (acc rest : Str) :
    reGo acc (c :: rest) = reGo (c :: acc) rest := by
  unfold reGo
  simp only [List.length_cons, reGoF]
  rw [if_neg hc]

theorem reGo_nl_match {rest rest2 : Str} (hm : wsNlMatch rest = some rest2) (acc : Str) :
    reGo acc ('\n' :: rest) = acc.reverse :: reGo [] rest2 := by
  unfold reGo
  simp only [List.length_cons, reGoF, if_pos rfl, if_true, hm]
  rw [reGoF_fuel_irrel rest.length rest2.length [] rest2 (wsNlMatch_length_le hm) (le_refl _)]

theorem reGo_nl_nomatch {rest : Str} (hm : wsNlMatch rest = none) (acc : Str) :
    reGo acc ('\n' :: rest) = reGo ('\n' :: acc) rest := by
  unfold reGo
  simp only [List.length_cons, reGoF, if_pos rfl, if_true, hm]

theorem wsNlMatch_cons_nonws {d : Char} (hd : isSpacePy d = false) (l : Str) :
    wsNlMatch (d :: l) = none := by
  unfold wsNlMatch
  rw [List.takeWhile_cons_of_neg (by simp [hd])]
  rfl

theorem reGo_through : ∀ (B : Str), nlSafe B = true → ∀ (acc tail : Str),
    reGo acc (B ++ tail) = reGo (B.reverse ++ acc) tail := by
  intro B
  induction B with
  | nil =>
    intro _ acc tail
    simp only [List.nil_append, List.reverse_nil]
  | cons c B' ih =>
    intro hsafe acc tail
    simp only [nlSafe, Bool.and_eq_true, Bool.or_eq_true] at hsafe
    obtain ⟨h1, h2⟩ := hsafe
    simp only [List.cons_append]
    by_cases hc : c = '\n'
    · subst hc
      have hB' : headNonWs B' = true := by
        rcases h1 with h | h
        · simp at h
        · exact h
      cases B' with
      | nil => exact absurd hB' (by simp [headNonWs])
      | cons d B2 =>
        simp only [headNonWs, Bool.not_eq_true'] at hB'
        rw [List.cons_append, reGo_nl_nomatch (wsNlMatch_cons_nonws hB' _) acc,
          ← List.cons_append, ih h2 ('\n' :: acc) tail]
        simp [List.append_assoc]
    · rw [reGo_cons_of_ne hc, ih h2 (c :: acc) tail]
      simp [List.append_assoc]

theorem takeWhile_ws_of_headNonWs {t : Str} (h : headNonWs t = true) :
    t.takeWhile isSpacePy = [] := by
  cases t with
  | nil => rfl
  | cons c r =>
    simp only [headNonWs, Bool.not_eq_true'] at h
    rw [List.takeWhile_cons_of_neg (by simp [h])]

theorem reGo_sep {B tail : Str} (hB : nlSafe B = true) (ht : headNonWs tail = true) (acc : Str) :
    reGo acc (B ++ '\n' :: '\n' :: tail) = (acc.reverse ++ B) :: reGo [] tail := by
  rw [reGo_through B hB acc ('\n' :: '\n' :: tail)]
  have hm : wsNlMatch ('\n' :: tail) = some tail := by
    unfold wsNlMatch
    rw [List.takeWhile_cons_of_pos (by decide), takeWhile_ws_of_headNonWs ht]
    rfl
  rw [reGo_nl_match hm]
  simp [List.reverse_append]

theorem reGo_final {B : Str} (hB : nlSafe B = true) (acc : Str) :
    reGo acc (B ++ ['\n']) = [acc.reverse ++ (B ++ ['\n'])] := by
  rw [reGo_through B hB acc ['\n']]
  have hstep : ∀ a : Str, reGo a ['\n'] = [('\n' :: a).reverse] := fun a => rfl
  rw [hstep, List.reverse_cons, List.reverse_append, List.reverse_reverse, List.append_assoc]

theorem slGo_nil (acc : Str) : slGo acc [] = [acc.reverse] := rfl

theorem slGoF_cons_plain {c : Char} (hc : isEolPy c = false) (f : ℕ) (acc rest : Str) :
    slGoF (f + 1) acc (c :: rest) = slGoF f (c :: acc) rest := by
  have hcr : c ≠ '\r' := by
    intro h
    rw [h] at hc
    exact absurd hc (by decide)
  simp only [slGoF]
  rw [if_neg hcr, if_neg (by simp [hc])]

theorem slGoF_cons_nl (f : ℕ) (acc rest : Str) :
    slGoF (f + 1) acc ('\n' :: rest) =
      acc.reverse :: (if rest = [] then [] else slGoF f [] rest) := by
  simp only [slGoF]
  rw [if_neg (by decide), if_pos (by decide)]

theorem slGo_cons_plain {c : Char} (hc : isEolPy c = false) (acc rest : Str) :
    slGo acc (c :: rest) = slGo (c :: acc) rest := by
  unfold slGo
  simp only [List.length_cons]
  exact slGoF_cons_plain hc _ _ _

theorem slGo_cons_nl (acc rest : Str) :
    slGo acc ('\n' :: rest) = acc.reverse :: (if rest = [] then [] else slGo [] rest) := by
  unfold slGo
  simp only [List.length_cons]
  exact slGoF_cons_nl _ _ _

theorem slGo_through : ∀ (a : Str), (∀ c ∈ a, isEolPy c = false) → ∀ (acc tail : Str),
    slGo acc (a ++ tail) = slGo (a.reverse ++ acc) tail := by
  intro a
  induction a with
  | nil =>
    intro _ acc tail
    simp only [List.nil_append, List.reverse_nil]
  | cons c a2 ih =>
    intro h acc tail
    simp only [List.cons_append]
    rw [slGo_cons_plain (h c (List.mem_cons_self c a2)) acc,
      ih (fun x hx => h x (List.mem_cons_of_mem c hx)) (c :: acc) tail]
    simp [List.append_assoc]

theorem slGo_line_break {a b : Str} (ha : ∀ c ∈ a, isEolPy c = false) (hb : b ≠ [])
    (acc : Str) : slGo acc (a ++ '\n' :: b) = (acc.reverse ++ a) :: slGo [] b := by
  rw [slGo_through a ha acc ('\n' :: b), slGo_cons_nl, if_neg hb]
  simp [List.reverse_append]

theorem slGo_last {a : Str} (ha : ∀ c ∈ a, isEolPy c = false) (acc : Str) :
    slGo acc a = [acc.reverse ++ a] := by
  have h := slGo_through a ha acc []
  rw [List.append_nil] at h
  rw [h, slGo_nil]
  simp [List.reverse_append]

theorem splitlinesPy_ne_nil_eq {x : Str} (h : x ≠ []) : splitlinesPy x = slGo [] x := by
  cases x with
  | nil => exact absurd rfl h
  | cons c rest => rfl

theorem to_srt_time_chars (q : ℚ) (n : ℕ) (hn : pyRound (qMul q 1000) = (n : ℤ))
    (h1 : n < 360000000) :
    ∀ c ∈ _to_srt_time q, isEolPy c = false ∧ isSpacePy c = false ∧ c ≠ '-' := by
  rw [to_srt_time_digits q n hn h1]
  intro c hc
  simp only [List.mem_cons, List.not_mem_nil, or_false] at hc
  rcases hc with rfl | rfl | rfl | rfl | rfl | rfl | rfl | rfl | rfl | rfl | rfl | rfl <;>
    first
      | exact ⟨by decide, by decide, by decide⟩
      | exact ⟨(digitChar_spec _).2.2.1, (digitChar_spec _).2.1, (digitChar_spec _).2.2.2⟩

theorem natToDigits_chars (i : ℕ) :
    ∀ c ∈ natToDigits i, isEolPy c = false ∧ isSpacePy c = false := by
  intro c hc
  obtain ⟨d, rfl⟩ := (natToDigits_shape i).2 c hc
  exact ⟨(digitChar_spec d).2.2.1, (digitChar_spec d).2.1⟩

theorem digitChar_isDigit (d : ℕ) : (digitChar d).isDigit = true := (digitChar_spec d).1

theorem digitChar_notWs (d : ℕ) : isSpacePy (digitChar d) = false := (digitChar_spec d).2.1

theorem ne_nl_of_not_eol {c : Char} (h : isEolPy c = false) : c ≠ '\n' := by
  intro hn
  rw [hn] at h
  exact absurd h (by decide)

theorem segTimes (s : CaptionSegment) (hs : SegWritable s) :
    ∃ ns ne : ℕ, pyRound (qMul s.start 1000) = (ns : ℤ) ∧
      pyRound (qMul s.«end» 1000) = (ne : ℤ) ∧ ns < 360000000 ∧ ne < 360000000 := by
  obtain ⟨h0s, h0e, hbs, hbe, -, -, -⟩ := hs
  have hns : 0 ≤ pyRound (qMul s.start 1000) :=
    pyRound_nonneg (by rw [qMul_eq]; exact mul_nonneg h0s (by norm_num))
  have hne2 : 0 ≤ pyRound (qMul s.«end» 1000) :=
    pyRound_nonneg (by rw [qMul_eq]; exact mul_nonneg h0e (by norm_num))
  refine ⟨(pyRound (qMul s.start 1000)).toNat, (pyRound (qMul s.«end» 1000)).toNat,
    (Int.toNat_of_nonneg hns).symm, (Int.toNat_of_nonneg hne2).symm, ?_, ?_⟩ <;> omega

theorem to_srt_time_strip_facts (q : ℚ) (n : ℕ) (hn : pyRound (qMul q 1000) = (n : ℤ))
    (h1 : n < 360000000) :
    headNonWs (_to_srt_time q) = true ∧ headNonWs (_to_srt_time q).reverse = true := by
  rw [to_srt_time_digits q n hn h1]
  constructor
  · simp [headNonWs, digitChar_notWs]
  · simp [headNonWs, digitChar_notWs]

theorem nlSafe_append : ∀ (a : Str), (∀ c ∈ a, c ≠ '\n') → ∀ {b : Str}, nlSafe b = true →
    nlSafe (a ++ b) = true := by
  intro a
  induction a with
  | nil =>
    intro _ b hb
    simpa using hb
  | cons c a2 ih =>
    intro ha b hb
    simp only [List.cons_append, nlSafe, Bool.and_eq_true, Bool.or_eq_true]
    refine ⟨Or.inl ?_, ih (fun x hx => ha x (List.mem_cons_of_mem c hx)) hb⟩
    exact bne_iff_ne.mpr (ha c (List.mem_cons_self c a2))

theorem nlSafe_of_noNl {t : Str} (h : ∀ c ∈ t, c ≠ '\n') : nlSafe t = true := by
  have h2 := nlSafe_append t h (show nlSafe [] = true from rfl)
  rwa [List.append_nil] at h2

theorem nlSafe_cons_nl {b : Str} (hb : headNonWs b = true) (h2 : nlSafe b = true) :
    nlSafe ('\n' :: b) = true := by
  simp [nlSafe, hb, h2]

theorem srtTimeLine_chars {s : CaptionSegment} (hs : SegWritable s) :
    ∀ c ∈ srtTimeLine s, isEolPy c = false := by
  obtain ⟨ns, ne, h1, h2, h3, h4⟩ := segTimes s hs
  intro c hc
  unfold srtTimeLine at hc
  rcases List.mem_append.mp hc with h | h
  · exact (to_srt_time_chars _ ns h1 h3 c h).1
  · simp only [List.mem_cons] at h
    rcases h with rfl | rfl | rfl | rfl | rfl | h
    · decide
    · decide
    · decide
    · decide
    · decide
    · exact (to_srt_time_chars _ ne h2 h4 c h).1

theorem headNonWs_timeline {s : CaptionSegment} (hs : SegWritable s) (t : Str) :
    headNonWs (srtTimeLine s ++ t) = true := by
  obtain ⟨ns, ne, h1, h2, h3, h4⟩ := segTimes s hs
  unfold srtTimeLine
  rw [to_srt_time_digits s.start ns h1 h3]
  simp [headNonWs, digitChar_notWs]

theorem revHeadNonWs_timeline {s : CaptionSegment} (hs : SegWritable s) :
    headNonWs (srtTimeLine s).reverse = true := by
  obtain ⟨ns, ne, h1, h2, h3, h4⟩ := segTimes s hs
  unfold srtTimeLine
  rw [to_srt_time_digits s.«end» ne h2 h4]
  simp [headNonWs, digitChar_notWs, List.reverse_append]

theorem srtBlock_nlSafe {s : CaptionSegment} (hs : SegWritable s) (i : ℕ) :
    nlSafe (srtBlock i s) = true := by
  have htext := hs.2.2.2.2.2.2
  have hne := hs.2.2.2.2.1
  have hstrip := hs.2.2.2.2.2.1
  unfold srtBlock
  apply nlSafe_append
  · exact fun c hc => ne_nl_of_not_eol (natToDigits_chars i c hc).1
  apply nlSafe_cons_nl (headNonWs_timeline hs _)
  apply nlSafe_append
  · exact fun c hc => ne_nl_of_not_eol (srtTimeLine_chars hs c hc)
  apply nlSafe_cons_nl (stripped_headNonWs hne hstrip)
  exact nlSafe_of_noNl (fun c hc => ne_nl_of_not_eol (htext c hc))

theorem splitlinesPy_srtBlock {s : CaptionSegment} (hs : SegWritable s) (i : ℕ) :
    splitlinesPy (srtBlock i s) = [natToDigits i, srtTimeLine s, s.text] := by
  have htext := hs.2.2.2.2.2.2
  have hne := hs.2.2.2.2.1
  unfold srtBlock
  rw [splitlinesPy_ne_nil_eq (by simp)]
  rw [slGo_line_break (fun c hc => (natToDigits_chars i c hc).1) (by simp)]
  rw [slGo_line_break (fun c hc => srtTimeLine_chars hs c hc) hne]
  rw [slGo_last htext]
  simp

theorem headNonWs_of_all {l : Str} (hne : l ≠ []) (h : ∀ c ∈ l, isSpacePy c = false) :
    headNonWs l = true := by
  cases l with
  | nil => exact absurd rfl hne
  | cons c r => simp [headNonWs, h c (List.mem_cons_self c r)]

theorem natToDigits_strip_facts (i : ℕ) :
    headNonWs (natToDigits i) = true ∧ headNonWs (natToDigits i).reverse = true := by
  obtain ⟨hne, _⟩ := natToDigits_shape i
  constructor
  · exact headNonWs_of_all hne (fun c hc => (natToDigits_chars i c hc).2)
  · exact headNonWs_of_all (by simpa using hne)
      (fun c hc => (natToDigits_chars i c (List.mem_reverse.mp hc)).2)

theorem splitOnFirst_no_dash : ∀ (a : Str), '-' ∉ a → ∀ (b : Str),
    splitOnFirst arrowTok (a ++ '-' :: '-' :: '>' :: b) = some (a, b) := by
  intro a
  induction a with
  | nil =>
    intro _ b
    unfold splitOnFirst
    rw [if_pos ⟨b, rfl⟩]
    rfl
  | cons c a2 ih =>
    intro hnd b
    have hc : c ≠ '-' := fun h => hnd (h ▸ List.mem_cons_self c a2)
    unfold splitOnFirst
    rw [List.cons_append, if_neg ?hpre]
    case hpre =>
      rintro ⟨t, ht⟩
      exact hc (List.cons.inj ht).1.symm
    show Option.map (fun p => (c :: p.1, p.2))
      (splitOnFirst arrowTok (a2 ++ '-' :: '-' :: '>' :: b)) = some (c :: a2, b)
    rw [ih (fun h => hnd (List.mem_cons_of_mem c h)) b]
    rfl

theorem splitOnFirst_timeline {s : CaptionSegment} (hs : SegWritable s) :
    splitOnFirst arrowTok (srtTimeLine s) =
      some (_to_srt_time s.start ++ [' '], ' ' :: _to_srt_time s.«end») := by
  obtain ⟨ns, ne, h1, h2, h3, h4⟩ := segTimes s hs
  have hnd : '-' ∉ _to_srt_time s.start ++ [' '] := by
    intro h
    rcases List.mem_append.mp h with h | h
    · exact (to_srt_time_chars _ ns h1 h3 '-' h).2.2 rfl
    · simp at h
  have hshape : srtTimeLine s =
      (_to_srt_time s.start ++ [' ']) ++ '-' :: '-' :: '>' :: (' ' :: _to_srt_time s.«end») := by
    unfold srtTimeLine
    rw [List.append_cons (_to_srt_time s.start) ' ']
  rw [hshape]
  exact splitOnFirst_no_dash _ hnd _

theorem headNonWs_append_left {a : Str} (h : headNonWs a = true) (b : Str) :
    headNonWs (a ++ b) = true := by
  cases a with
  | nil => exact absurd h (by simp [headNonWs])
  | cons c r => simpa [headNonWs] using h

theorem intercalate_nl_cons (x y : Str) (l : List Str) :
    List.intercalate ['\n'] (x :: y :: l) = x ++ '\n' :: List.intercalate ['\n'] (y :: l) := by
  simp [List.intercalate, List.intersperse]

theorem intercalate_single (x : Str) : List.intercalate [' '] [x] = x := by
  simp [List.intercalate]

theorem strip_time_pre (q : ℚ) (n : ℕ) (hn : pyRound (qMul q 1000) = (n : ℤ))
    (h1 : n < 360000000) : pyStrip (_to_srt_time q ++ [' ']) = _to_srt_time q := by
  obtain ⟨hh, hr⟩ := to_srt_time_strip_facts q n hn h1
  unfold pyStrip
  rw [pyLstrip_eq_self (headNonWs_append_left hh _), pyRstrip_append_ws (by decide),
    pyRstrip_eq_self hr]

theorem strip_time_post (q : ℚ) (n : ℕ) (hn : pyRound (qMul q 1000) = (n : ℤ))
    (h1 : n < 360000000) : pyStrip (' ' :: _to_srt_time q) = _to_srt_time q := by
  obtain ⟨hh, hr⟩ := to_srt_time_strip_facts q n hn h1
  rw [pyStrip_cons_space, pyStrip_eq_self hh hr]

theorem to_seconds_time (q : ℚ) (n : ℕ) (hn : pyRound (qMul q 1000) = (n : ℤ))
    (h1 : n < 360000000) : _to_seconds (_to_srt_time q) = .ok (pyRound3 q) := by
  obtain ⟨hh, hr⟩ := to_srt_time_strip_facts q n hn h1
  unfold _to_seconds
  rw [pyStrip_eq_self hh hr, to_srt_time_digits q n hn h1]
  simp only [digitChar_isDigit, Bool.and_self, if_true]
  rw [digitVal_digitChar (n / 3600000 / 10) (by omega),
    digitVal_digitChar (n / 3600000 % 10) (by omega),
    digitVal_digitChar (n % 3600000 / 60000 / 10) (by omega),
    digitVal_digitChar (n % 3600000 / 60000 % 10) (by omega),
    digitVal_digitChar (n % 3600000 % 60000 / 1000 / 10) (by omega),
    digitVal_digitChar (n % 3600000 % 60000 / 1000 % 10) (by omega),
    digitVal_digitChar (n % 3600000 % 60000 % 1000 / 100) (by omega),
    digitVal_digitChar (n % 3600000 % 60000 % 1000 / 10 % 10) (by omega),
    digitVal_digitChar (n % 3600000 % 60000 % 1000 % 10) (by omega)]
  rw [show 10 * (n / 3600000 / 10) + n / 3600000 % 10 = n / 3600000 from by omega,
    show 10 * (n % 3600000 / 60000 / 10) + n % 3600000 / 60000 % 10 = n % 3600000 / 60000
      from by omega,
    show 10 * (n % 3600000 % 60000 / 1000 / 10) + n % 3600000 % 60000 / 1000 % 10 =
      n % 3600000 % 60000 / 1000 from by omega,
    show 100 * (n % 3600000 % 60000 % 1000 / 100) + 10 * (n % 3600000 % 60000 % 1000 / 10 % 10) +
      n % 3600000 % 60000 % 1000 % 10 = n % 3600000 % 60000 % 1000 from by omega]
  rw [time_value_eq n]
  unfold pyRound3
  rw [hn, Int.cast_natCast]

theorem srtBlock_headNonWs (i : ℕ) (s : CaptionSegment) :
    headNonWs (srtBlock i s) = true := by
  unfold srtBlock
  exact headNonWs_digits_append i _

theorem srtBlock_revHeadNonWs {s : CaptionSegment} (hs : SegWritable s) (i : ℕ) :
    headNonWs (srtBlock i s).reverse = true := by
  have hne := hs.2.2.2.2.1
  have hstrip := hs.2.2.2.2.2.1
  simp only [srtBlock, List.reverse_append, List.reverse_cons, List.append_assoc]
  exact headNonWs_append_left (stripped_revHeadNonWs hne hstrip) _

theorem srtBlock_ne_nil (i : ℕ) (s : CaptionSegment) : srtBlock i s ≠ [] := by
  simp [srtBlock]

theorem except_bind_ok {ε α β : Type} (v : α) (f : α → Except ε β) :
    (Except.ok v : Except ε α) >>= f = f v := rfl

theorem parseBlocks_cons_block {s : CaptionSegment} (hs : SegWritable s) (i : ℕ)
    (more : List Str) :
    parseBlocks (srtBlock i s :: more) = (parseBlocks more).map (fun r => roundSeg s :: r) := by
  obtain ⟨ns, ne, h1, h2, h3, h4⟩ := segTimes s hs
  have hne := hs.2.2.2.2.1
  have hstrip := hs.2.2.2.2.2.1
  have hlines : ((splitlinesPy (srtBlock i s)).filter (fun l => pyStrip l ≠ [])).map pyRstrip
      = [natToDigits i, srtTimeLine s, s.text] := by
    rw [splitlinesPy_srtBlock hs i]
    have f1 : pyStrip (natToDigits i) = natToDigits i :=
      pyStrip_eq_self (natToDigits_strip_facts i).1 (natToDigits_strip_facts i).2
    have f2 : pyStrip (srtTimeLine s) = srtTimeLine s := by
      have hh := headNonWs_timeline hs []
      rw [List.append_nil] at hh
      exact pyStrip_eq_self hh (revHeadNonWs_timeline hs)
    have g1 : pyRstrip (natToDigits i) = natToDigits i :=
      pyRstrip_eq_self (natToDigits_strip_facts i).2
    have g2 : pyRstrip (srtTimeLine s) = srtTimeLine s :=
      pyRstrip_eq_self (revHeadNonWs_timeline hs)
    have g3 : pyRstrip s.text = s.text := rstrip_of_strip_eq hstrip
    have hd1 : natToDigits i ≠ [] := (natToDigits_shape i).1
    have hd2 : srtTimeLine s ≠ [] := by simp [srtTimeLine]
    simp [List.filter_cons, f1, f2, hstrip, hd1, hd2, hne, g1, g2, g3]
  simp only [parseBlocks]
  rw [hlines]
  simp only [splitOnFirst_timeline hs, intercalate_single, hstrip]
  rw [if_neg hne]
  rw [strip_time_pre s.start ns h1 h3, strip_time_post s.«end» ne h2 h4,
    to_seconds_time s.start ns h1 h3, to_seconds_time s.«end» ne h2 h4]
  simp only [except_bind_ok]
  cases hp : parseBlocks more with
  | ok r => rfl
  | error e => rfl

theorem reSplitBlankPy_sep {B tail : Str} (hB : nlSafe B = true) (hT : headNonWs tail = true) :
    reSplitBlankPy (B ++ '\n' :: '\n' :: tail) = B :: reSplitBlankPy tail := by
  unfold reSplitBlankPy
  rw [reGo_sep hB hT []]
  simp

theorem reSplitBlankPy_final {B : Str} (hB : nlSafe B = true) :
    reSplitBlankPy (B ++ ['\n']) = [B ++ ['\n']] := by
  unfold reSplitBlankPy
  rw [reGo_final hB []]
  simp

theorem parse_write_aux : ∀ (segs : List CaptionSegment), (∀ s ∈ segs, SegWritable s) →
    ∀ (i : ℕ),
    parseBlocks (((reSplitBlankPy (List.intercalate ['\n'] (srtLines i segs))).map pyStrip).filter
      (fun b => b ≠ [])) = .ok (segs.map roundSeg) := by
  intro segs
  induction segs with
  | nil => intro _ i; rfl
  | cons s rest ih =>
    intro hall i
    have hs := hall s (List.mem_cons_self s rest)
    have htail : ∀ t ∈ rest, SegWritable t := fun t ht => hall t (List.mem_cons_of_mem s ht)
    have hBstrip : pyStrip (srtBlock i s) = srtBlock i s :=
      pyStrip_eq_self (srtBlock_headNonWs i s) (srtBlock_revHeadNonWs hs i)
    cases rest with
    | nil =>
      have hdoc : List.intercalate ['\n'] (srtLines i [s]) = srtBlock i s ++ ['\n'] := by
        simp only [srtLines]
        rw [intercalate_nl_cons, intercalate_nl_cons, intercalate_nl_cons]
        simp [srtBlock, List.intercalate, List.append_assoc]
      rw [hdoc, reSplitBlankPy_final (srtBlock_nlSafe hs i)]
      have hstripBl : pyStrip (srtBlock i s ++ ['\n']) = srtBlock i s := by
        unfold pyStrip
        rw [pyLstrip_eq_self (headNonWs_append_left (srtBlock_headNonWs i s) _),
          pyRstrip_append_ws (by decide), pyRstrip_eq_self (srtBlock_revHeadNonWs hs i)]
      simp only [List.map_cons, List.map_nil, hstripBl, List.filter_cons]
      rw [if_pos (by simp [srtBlock_ne_nil i s])]
      rw [List.filter_nil, parseBlocks_cons_block hs i []]
      rfl
    | cons s2 rest2 =>
      have hdoc : List.intercalate ['\n'] (srtLines i (s :: s2 :: rest2)) =
          srtBlock i s ++ '\n' :: '\n' ::
            List.intercalate ['\n'] (srtLines (i + 1) (s2 :: rest2)) := by
        conv_lhs => rw [srtLines]
        rw [intercalate_nl_cons, intercalate_nl_cons, intercalate_nl_cons]
        rw [show srtLines (i + 1) (s2 :: rest2) =
          natToDigits (i + 1) :: srtTimeLine s2 :: s2.text :: [] :: srtLines (i + 2) rest2
          from rfl]
        rw [intercalate_nl_cons]
        simp [srtBlock, List.append_assoc]
      have hhead : headNonWs (List.intercalate ['\n'] (srtLines (i + 1) (s2 :: rest2))) = true := by
        rw [show srtLines (i + 1) (s2 :: rest2) =
          natToDigits (i + 1) :: srtTimeLine s2 :: s2.text :: [] :: srtLines (i + 2) rest2
          from rfl]
        rw [intercalate_nl_cons]
        exact headNonWs_digits_append _ _
      rw [hdoc, reSplitBlankPy_sep (srtBlock_nlSafe hs i) hhead]
      simp only [List.map_cons, hBstrip, List.filter_cons]
      rw [if_pos (by simp [srtBlock_ne_nil i s])]
      rw [parseBlocks_cons_block hs i _, ih htail (i + 1)]
      rfl

/-- C1, counterexample.  The round-trip claim fails as stated: the segment
`(0, 1, "a\nb")` has `end > start` and non-empty text, but decoding its
encoding yields text `"a b"` (the decoder joins the block's text lines
with single spaces), not the original text. -/
theorem srt_round_trip_cex :
    parse_srt_file (write_srt [{ start := 0, «end» := 1, text := "a\nb".toList }]) =
        .ok [{ start := 0, «end» := 1, text := "a b".toList }] ∧
      "a b".toList ≠ "a\nb".toList := by
  constructor
  · decide
  · decide

/-- C1, amended.  Format A round-trip: for every segment collection in which
every segment has `end > start`, non-negative times below the 100-hour
rollover of the two-digit hour field, and caption text that is non-empty,
stripped and free of line-break characters, decoding the output of the
encoder (`write_srt` followed by `parse_srt_file`) yields the same
collection, modulo rounding of the times to 3 decimal places
(`round(·, 3)`, half to even). -/
theorem srt_round_trip (segs : List CaptionSegment)
    (_hlt : ∀ s ∈ segs, s.start < s.«end») (hw : ∀ s ∈ segs, SegWritable s) :
    parse_srt_file (write_srt segs) = .ok (segs.map roundSeg) := by
  unfold parse_srt_file write_srt
  exact parse_write_aux segs hw 1

/-- Closed witness for `srt_round_trip` at the two-segment collection
`(0, 1.5, "Hi"), (1.5, 3, "There")`. -/
theorem srt_round_trip_witness :
    (∀ s ∈ [({ start := 0, «end» := mkRat 3 2, text := "Hi".toList } : CaptionSegment),
        { start := mkRat 3 2, «end» := 3, text := "There".toList }], s.start < s.«end») ∧
    (∀ s ∈ [({ start := 0, «end» := mkRat 3 2, text := "Hi".toList } : CaptionSegment),
        { start := mkRat 3 2, «end» := 3, text := "There".toList }], SegWritable s) ∧
    parse_srt_file (write_srt
        [({ start := 0, «end» := mkRat 3 2, text := "Hi".toList } : CaptionSegment),
          { start := mkRat 3 2, «end» := 3, text := "There".toList }]) =
      .ok ([({ start := 0, «end» := mkRat 3 2, text := "Hi".toList } : CaptionSegment),
          { start := mkRat 3 2, «end» := 3, text := "There".toList }].map roundSeg) :=
  ⟨by decide, by decide,
    srt_round_trip
      [({ start := 0, «end» := mkRat 3 2, text := "Hi".toList } : CaptionSegment),
        { start := mkRat 3 2, «end» := 3, text := "There".toList }]
      (by decide) (by decide)⟩

end CaptionStudio
